import Mathlib

/-!
Shallow embedding of the `rust-parser` repository (src/src/tokenizer.rs,
src/src/parser.rs) and proofs about the claims of its specification.

Conventions of the embedding:
* Rust `String`s are Lean `String`s; indices are character positions
  (the Rust code uses byte indices, which coincide on the ASCII inputs
  exercised here).
* A compiled regular expression is modelled by its matching function
  `String → Bool`.  Patterns loaded from a lexical specification are
  anchored (`^…$`), so their matchers are full-string matchers.
  The synthetic `epsilon` pattern is built from `Regex::new("")`; an
  empty regular expression finds an empty match at position 0 of every
  haystack, so its `is_match` is constantly `true`.
* Fallible Rust functions returning `Result<T, String>` become
  `Except String T`.
-/

namespace RustParser

/-- `tokenizer.rs`: `const EPSILON: &str = "epsilon"`. -/
def EPSILON : String := "epsilon"

/-- `tokenizer.rs` `struct Pattern { name, value: Regex }`; the compiled
regex is modelled by its `is_match` function. -/
structure Pattern where
  name : String
  value : String → Bool

/-- `tokenizer.rs` `struct Token { name, value, line, column }`. -/
structure Token where
  name : String
  value : String
  line : Nat
  column : Nat
deriving DecidableEq, Repr

/-- `tokenizer.rs` `struct Body { value, line, column }`. -/
structure Body where
  value : String
  line : Nat
  column : Nat
deriving DecidableEq, Repr

/-- Rust `char::is_alphanumeric`; on the ASCII inputs considered here it
agrees with Lean's `Char.isAlphanum`. -/
def isAlnum (c : Char) : Bool := c.isAlphanum

/-- The substring `text[a..b]` (character indices). -/
def sliceStr (text : List Char) (a b : Nat) : String :=
  String.mk ((text.drop a).take (b - a))

/-- Loop body of `split_keep` (tokenizer.rs lines 146-201).  The Rust code
iterates `text.match_indices(|c| !c.is_alphanumeric())`; here we walk every
character with its index and act only on the non-alphanumeric ones, which
yields the same sequence of matches.  State: `last`, `line`, `lineStart`,
`column` and the accumulated result, exactly as in the source. -/
def split_keep_go (text : List Char) : List Char → Nat → Nat → Nat → Nat → Nat →
    List Body → List Body
  | [], _idx, last, line, _lineStart, column, acc =>
      -- `if last < text.len() { result.push(...) }`
      if last < text.length then
        acc ++ [⟨sliceStr text last text.length, line, column⟩]
      else acc
  | c :: rest, idx, last, line, lineStart, column, acc =>
      if isAlnum c then
        split_keep_go text rest (idx+1) last line lineStart column acc
      else
        -- `if last != index { result.push(text[last..index]); column += len }`
        let pushed :=
          if last ≠ idx then
            (acc ++ [⟨sliceStr text last idx, line, column⟩], column + (idx - last))
          else (acc, column)
        let acc' := pushed.1
        let column' := pushed.2
        if c = ' ' ∨ c = '\t' then
          split_keep_go text rest (idx+1) (idx+1) line lineStart (column'+1) acc'
        else if c = '\r' then
          split_keep_go text rest (idx+1) (idx+1) line idx 1 acc'
        else if c = '\n' then
          split_keep_go text rest (idx+1) (idx+1) (line+1) idx 1 acc'
        else
          split_keep_go text rest (idx+1) (idx+1) line lineStart ((idx - lineStart) + 1)
            (acc' ++ [⟨String.mk [c], line, idx - lineStart⟩])

/-- `split_keep` (tokenizer.rs): initial state `last = 0`, `line = 1`,
`line_start = 0`, `column = 1`. -/
def split_keep (text : List Char) : List Body :=
  split_keep_go text text 0 0 1 0 1 []

/-- `tokenizer.rs` `struct Tokenizer { patterns: Vec<Pattern> }`. -/
structure Tokenizer where
  patterns : List Pattern

/-- `Tokenizer::epsilon()`: the pattern named `epsilon` compiled from the
empty regular expression.  `Regex::new("").is_match(s)` is `true` for every
`s` (the empty regex matches the empty substring at position 0), so the
matcher is constantly `true`. -/
def Tokenizer.epsilon : Pattern :=
  ⟨EPSILON, fun _ => true⟩

/-- Result of `Tokenizer::from_file` on a lexical specification declaring
`userPatterns`: the declared patterns in order, with the synthetic
`epsilon` pattern appended (tokenizer.rs line 78). -/
def loadedTokenizer (userPatterns : List Pattern) : Tokenizer :=
  ⟨userPatterns ++ [Tokenizer.epsilon]⟩

/-- The buffer the patterns are scanned against (tokenizer.rs lines
98-107): `lookup + sub` when `lookup` is set, `sub` alone otherwise. -/
def currentBody (lookup : Option Body) (sub : Body) : Body :=
  match lookup with
  | some b => ⟨b.value ++ sub.value, b.line, b.column⟩
  | none => sub

/-- Loop body of `Tokenizer::parse` (tokenizer.rs lines 89-136).  For each
atom `sub`, the first pattern matching `current.value` yields a token.  On
a match the code sets `lookup = None` and clears `unmatched`; otherwise it
records `sub.value` as `unmatched` if `unmatched` is empty.  Note that the
source never assigns `Some(..)` to `lookup`, which this port reproduces:
the `lookup` argument is passed through unchanged in the no-match branch. -/
def tokenize_go (patterns : List Pattern) :
    List Body → Option Body → String → List Token → Except String (List Token)
  | [], _lookup, unmatched, result =>
      if unmatched.length > 0 then
        .error ("Unknown token " ++ unmatched ++ ".")
      else
        .ok result
  | sub :: rest, lookup, unmatched, result =>
      let current : Body := currentBody lookup sub
      match patterns.find? (fun p => p.value current.value) with
      | some p =>
          tokenize_go patterns rest none ""
            (result ++ [⟨p.name, current.value, current.line, current.column⟩])
      | none =>
          tokenize_go patterns rest lookup
            (if unmatched.length == 0 then sub.value else unmatched) result

/-- Unfolding of the tokenizer loop on a matched atom. -/
theorem tokenize_go_cons_found (patterns : List Pattern) (sub : Body)
    (rest : List Body) (lookup : Option Body) (unmatched : String)
    (result : List Token) (p : Pattern)
    (hp : patterns.find? (fun q => q.value (currentBody lookup sub).value) = some p) :
    tokenize_go patterns (sub :: rest) lookup unmatched result =
      tokenize_go patterns rest none ""
        (result ++ [⟨p.name, (currentBody lookup sub).value,
          (currentBody lookup sub).line, (currentBody lookup sub).column⟩]) := by
  have base :
      tokenize_go patterns (sub :: rest) lookup unmatched result =
        match patterns.find? (fun q => q.value (currentBody lookup sub).value) with
        | some p =>
            tokenize_go patterns rest none ""
              (result ++ [⟨p.name, (currentBody lookup sub).value,
                (currentBody lookup sub).line, (currentBody lookup sub).column⟩])
        | none =>
            tokenize_go patterns rest lookup
              (if unmatched.length == 0 then sub.value else unmatched) result := rfl
  rw [base, hp]

/-- `Tokenizer::parse` (tokenizer.rs lines 89-136). -/
def Tokenizer.parse (t : Tokenizer) (s : String) : Except String (List Token) :=
  tokenize_go t.patterns (split_keep s.data) none "" []

/-- Anchored matcher of the declaration `NAME = [A-Za-z]+`. -/
def idPattern : Pattern :=
  ⟨"ID", fun s => !s.isEmpty && s.data.all (fun c => c.isAlpha)⟩

/-- Anchored matcher of the declaration `NE = !=`. -/
def nePattern : Pattern :=
  ⟨"NE", fun s => s == "!="⟩

/-- Anchored matcher of a lower-case-letters declaration `LOW = [a-z]+`. -/
def lowPattern : Pattern :=
  ⟨"LOW", fun s => !s.isEmpty && s.data.all (fun c => c.isLower)⟩

/-- In a loaded pattern store the `epsilon` pattern matches every buffer,
so the pattern scan always finds a match. -/
theorem find_with_epsilon (ps : List Pattern) (s : String) :
    ∃ p, (ps ++ [Tokenizer.epsilon]).find? (fun p => p.value s) = some p := by
  induction ps with
  | nil => exact ⟨Tokenizer.epsilon, rfl⟩
  | cons q qs ih =>
      by_cases h : q.value s = true
      · exact ⟨q, by simp [List.find?, h]⟩
      · obtain ⟨p, hp⟩ := ih
        refine ⟨p, ?_⟩
        simp only [List.cons_append, List.find?]
        rw [Bool.not_eq_true] at h
        rw [h]
        exact hp

/-- With the synthetic `epsilon` pattern in the store, every atom matches,
so `unmatched` is cleared at every step and the tokenizer loop always
returns `Ok`. -/
theorem tokenize_go_ok (ps : List Pattern) (atoms : List Body)
    (lookup : Option Body) (acc : List Token) :
    ∃ ts, tokenize_go (ps ++ [Tokenizer.epsilon]) atoms lookup "" acc = .ok ts := by
  induction atoms generalizing lookup acc with
  | nil => exact ⟨acc, rfl⟩
  | cons sub rest ih =>
      obtain ⟨p, hp⟩ := find_with_epsilon ps (currentBody lookup sub).value
      obtain ⟨ts, hts⟩ := ih none
        (acc ++ [⟨p.name, (currentBody lookup sub).value,
          (currentBody lookup sub).line, (currentBody lookup sub).column⟩])
      exact ⟨ts, by rw [tokenize_go_cons_found _ _ _ _ _ _ _ hp]; exact hts⟩

/-- C1: on a loaded pattern store, `Tokenizer::parse` never raises
`Unknown token …`: the `epsilon` pattern (compiled from the empty regex)
matches every atom, so the `unmatched` bookkeeping never survives to the
end of input.  On the scenario of the claim (lexspec `ID = [A-Za-z]+`, no
rule for `@`, input `foo @ bar`) the code returns a token list in which
`@` is emitted as a token named `epsilon` instead of the diagnostic
`Unknown token @.`. -/
theorem C1_unknown_token_never_raised :
    (loadedTokenizer [idPattern]).parse "foo @ bar" =
      .ok [⟨"ID", "foo", 1, 1⟩, ⟨"epsilon", "@", 1, 4⟩, ⟨"ID", "bar", 1, 6⟩] ∧
    ∀ (ps : List Pattern) (s : String),
      ∃ ts, (loadedTokenizer ps).parse s = .ok ts := by
  refine ⟨rfl, fun ps s => ?_⟩
  exact tokenize_go_ok ps (split_keep s.data) none []

/-- C2: the `lookup` buffer never grows.  The source never assigns
`Some(..)` to `lookup`, so each atom is matched on its own: with lexspec
`NE = !=` and input `!=`, no token with lexeme `!=` is produced; instead
the two atoms `!` and `=` are emitted separately (both matched only by the
always-matching `epsilon` pattern). -/
theorem C2_buffer_never_grows :
    (loadedTokenizer [nePattern]).parse "!=" =
      .ok [⟨"epsilon", "!", 1, 0⟩, ⟨"epsilon", "=", 1, 1⟩] := rfl

/-- Unfolding of the tokenizer loop on an unmatched atom. -/
theorem tokenize_go_cons_none (patterns : List Pattern) (sub : Body)
    (rest : List Body) (lookup : Option Body) (unmatched : String)
    (result : List Token)
    (hp : patterns.find? (fun q => q.value (currentBody lookup sub).value) = none) :
    tokenize_go patterns (sub :: rest) lookup unmatched result =
      tokenize_go patterns rest lookup
        (if unmatched.length == 0 then sub.value else unmatched) result := by
  have base :
      tokenize_go patterns (sub :: rest) lookup unmatched result =
        match patterns.find? (fun q => q.value (currentBody lookup sub).value) with
        | some p =>
            tokenize_go patterns rest none ""
              (result ++ [⟨p.name, (currentBody lookup sub).value,
                (currentBody lookup sub).line, (currentBody lookup sub).column⟩])
        | none =>
            tokenize_go patterns rest lookup
              (if unmatched.length == 0 then sub.value else unmatched) result := rfl
  rw [base, hp]

/-- Position discipline of an atom: its line is at least 1, and its column
is at least 1 unless it is a single non-alphanumeric character (whose
column is the 0-based offset from the last line start). -/
def goodBody (b : Body) : Prop :=
  1 ≤ b.line ∧ (1 ≤ b.column ∨ ∃ c, b.value = String.mk [c] ∧ isAlnum c = false)

/-- Same discipline for emitted tokens. -/
def goodToken (t : Token) : Prop :=
  1 ≤ t.line ∧ (1 ≤ t.column ∨ ∃ c, t.value = String.mk [c] ∧ isAlnum c = false)

theorem good_append {acc : List Body} {x : Body}
    (hacc : ∀ b ∈ acc, goodBody b) (hx : goodBody x) :
    ∀ b ∈ acc ++ [x], goodBody b := by
  intro b hb
  rcases List.mem_append.mp hb with h | h
  · exact hacc b h
  · rcases List.mem_singleton.mp h with rfl
    exact hx

/-- Every atom produced by `split_keep_go` from a well-formed state
(`1 ≤ line`, `1 ≤ column`) satisfies `goodBody`: the line counter only ever
grows from 1 and the column counter is only reset to 1 or set to
`index - line_start`, the latter exactly when a single non-alphanumeric
atom is pushed. -/
theorem split_keep_go_good (text : List Char) :
    ∀ (chunk : List Char) (idx last line lineStart column : Nat) (acc : List Body),
      1 ≤ line → 1 ≤ column → (∀ b ∈ acc, goodBody b) →
      ∀ b ∈ split_keep_go text chunk idx last line lineStart column acc, goodBody b := by
  intro chunk
  induction chunk with
  | nil =>
      intro idx last line lineStart column acc hl hc hacc b hb
      simp only [split_keep_go] at hb
      by_cases hlt : last < text.length
      · rw [if_pos hlt] at hb
        exact good_append hacc ⟨hl, Or.inl hc⟩ b hb
      · rw [if_neg hlt] at hb
        exact hacc b hb
  | cons c rest ih =>
      intro idx last line lineStart column acc hl hc hacc b hb
      simp only [split_keep_go] at hb
      by_cases hal : isAlnum c
      · rw [if_pos hal] at hb
        exact ih _ _ _ _ _ _ hl hc hacc b hb
      · rw [if_neg hal] at hb
        by_cases hli : last ≠ idx
        · rw [if_pos hli] at hb
          have hacc' : ∀ b ∈ acc ++ [⟨sliceStr text last idx, line, column⟩], goodBody b :=
            good_append hacc ⟨hl, Or.inl hc⟩
          by_cases hsp : c = ' ' ∨ c = '\t'
          · rw [if_pos hsp] at hb
            exact ih _ _ _ _ _ _ hl (Nat.le_add_right_of_le (Nat.le_add_right_of_le hc)) hacc' b hb
          · rw [if_neg hsp] at hb
            by_cases hcr : c = '\r'
            · rw [if_pos hcr] at hb
              exact ih _ _ _ _ _ _ hl Nat.le.refl hacc' b hb
            · rw [if_neg hcr] at hb
              by_cases hnl : c = '\n'
              · rw [if_pos hnl] at hb
                exact ih _ _ _ _ _ _ (Nat.le_add_right_of_le hl) Nat.le.refl hacc' b hb
              · rw [if_neg hnl] at hb
                refine ih _ _ _ _ _ _ hl (Nat.le_add_left 1 _) ?_ b hb
                exact good_append hacc' ⟨hl, Or.inr ⟨c, rfl, Bool.not_eq_true _ ▸ hal⟩⟩
        · rw [if_neg hli] at hb
          by_cases hsp : c = ' ' ∨ c = '\t'
          · rw [if_pos hsp] at hb
            exact ih _ _ _ _ _ _ hl (Nat.le_add_right_of_le hc) hacc b hb
          · rw [if_neg hsp] at hb
            by_cases hcr : c = '\r'
            · rw [if_pos hcr] at hb
              exact ih _ _ _ _ _ _ hl Nat.le.refl hacc b hb
            · rw [if_neg hcr] at hb
              by_cases hnl : c = '\n'
              · rw [if_pos hnl] at hb
                exact ih _ _ _ _ _ _ (Nat.le_add_right_of_le hl) Nat.le.refl hacc b hb
              · rw [if_neg hnl] at hb
                refine ih _ _ _ _ _ _ hl (Nat.le_add_left 1 _) ?_ b hb
                exact good_append hacc ⟨hl, Or.inr ⟨c, rfl, Bool.not_eq_true _ ▸ hal⟩⟩

theorem split_keep_good (text : List Char) :
    ∀ b ∈ split_keep text, goodBody b :=
  split_keep_go_good text text 0 0 1 0 1 [] Nat.le.refl Nat.le.refl (by intro b h; cases h)

/-- With `lookup = None` throughout (which the source guarantees, since it
never assigns `Some`), every emitted token copies the value, line and
column of one atom, so it satisfies the same position discipline. -/
theorem tokenize_go_good (ps : List Pattern) :
    ∀ (atoms : List Body) (u : String) (acc ts : List Token),
      (∀ b ∈ atoms, goodBody b) → (∀ t ∈ acc, goodToken t) →
      tokenize_go ps atoms none u acc = .ok ts → ∀ t ∈ ts, goodToken t := by
  intro atoms
  induction atoms with
  | nil =>
      intro u acc ts _hatoms hacc h t ht
      simp only [tokenize_go] at h
      by_cases hu : u.length > 0
      · rw [if_pos hu] at h
        exact absurd h (by simp)
      · rw [if_neg hu] at h
        cases h
        exact hacc t ht
  | cons sub rest ih =>
      intro u acc ts hatoms hacc h t ht
      cases hfind : ps.find? (fun q => q.value (currentBody none sub).value) with
      | some p =>
          rw [tokenize_go_cons_found _ _ _ _ _ _ _ hfind] at h
          have hsub : goodBody sub := hatoms sub (List.mem_cons_self _ _)
          refine ih "" _ ts (fun b hb => hatoms b (List.mem_cons_of_mem _ hb)) ?_ h t ht
          intro t' ht'
          rcases List.mem_append.mp ht' with h' | h'
          · exact hacc t' h'
          · rcases List.mem_singleton.mp h' with rfl
            exact ⟨hsub.1, hsub.2⟩
      | none =>
          rw [tokenize_go_cons_none _ _ _ _ _ _ hfind] at h
          exact ih _ _ ts (fun b hb => hatoms b (List.mem_cons_of_mem _ hb)) hacc h t ht

/-- C8 counterexample: on the loaded pattern store of an empty lexical
specification and input `@` (first character non-alphanumeric), the single
returned token has column 0, refuting `column >= 1`. -/
theorem C8_counterexample :
    (loadedTokenizer []).parse "@" = .ok [⟨"epsilon", "@", 1, 0⟩] ∧
      ¬ (1 ≤ (⟨"epsilon", "@", 1, 0⟩ : Token).column) :=
  ⟨rfl, by decide⟩

/-- C8 amended: every token returned by a successful tokenize call has
`line >= 1`; its column is `>= 1` unless the token is a single
non-alphanumeric character, whose column is the 0-based offset from the
last line start (0 for a character at the start of the first line). -/
theorem C8_token_positions (ps : List Pattern) (s : String) (ts : List Token)
    (h : (loadedTokenizer ps).parse s = .ok ts) :
    ∀ t ∈ ts, 1 ≤ t.line ∧
      (1 ≤ t.column ∨ ∃ c, t.value = String.mk [c] ∧ isAlnum c = false) :=
  tokenize_go_good _ (split_keep s.data) "" [] ts (split_keep_good s.data)
    (by intro t ht; cases ht) h

/-- C8 witness: the amended statement applied to the concrete store of an
empty lexical specification and input `@`. -/
theorem C8_token_positions_witness :
    1 ≤ (⟨"epsilon", "@", 1, 0⟩ : Token).line ∧
      (1 ≤ (⟨"epsilon", "@", 1, 0⟩ : Token).column ∨
        ∃ c, (⟨"epsilon", "@", 1, 0⟩ : Token).value = String.mk [c] ∧ isAlnum c = false) :=
  C8_token_positions [] "@" [⟨"epsilon", "@", 1, 0⟩] rfl _ (List.mem_singleton.mpr rfl)

/-- C9: line/column tracking.  On input `a\nb\n  c` the token for `c`
carries `line = 3`, `column = 3` (newline increments the line and resets
the column; spaces advance the column); on input `a\rb` the carriage
return resets the column to 1 without incrementing the line. -/
theorem C9_line_column_tracking :
    (loadedTokenizer [lowPattern]).parse "a\nb\n  c" =
      .ok [⟨"LOW", "a", 1, 1⟩, ⟨"LOW", "b", 2, 1⟩, ⟨"LOW", "c", 3, 3⟩] ∧
    (loadedTokenizer [lowPattern]).parse "a\rb" =
      .ok [⟨"LOW", "a", 1, 1⟩, ⟨"LOW", "b", 1, 1⟩] :=
  ⟨rfl, rfl⟩

/-! ### Grammar loader (parser.rs) -/

/-- `parser.rs`: `const EOF: &str = "$"`. -/
def EOF : String := "$"

/-- `parser.rs`: `const ROOT: &str = "__ROOT"`. -/
def ROOT : String := "__ROOT"

/-- `parser.rs` `enum NodeType`.  The Rust `Token` variant also carries a
clone of the matched `Pattern`; that field is never consulted after
loading, so only the name is kept here. -/
inductive NodeType
  | token (name : String)
  | grammar (name : String)
deriving DecidableEq, Repr

/-- One alternative of a production: `type GrammarVariant = Vec<NodeType>`. -/
abbrev GrammarVariant := List NodeType

/-- `type GrammarVariants = Vec<GrammarVariant>`. -/
abbrev GrammarVariants := List GrammarVariant

/-- Rust `str::trim` (and Lean's `String.trim`): strip whitespace from
both ends.  Implemented on character lists so that it reduces in the
kernel. -/
def trimChars (cs : List Char) : List Char :=
  ((cs.dropWhile (fun c => c.isWhitespace)).reverse.dropWhile
    (fun c => c.isWhitespace)).reverse

/-- `str::trim` on strings. -/
def strTrim (s : String) : String := String.mk (trimChars s.data)

/-- Rust `str::split(sep)` for a one-character separator (same semantics
as Lean's `String.splitOn`), implemented so that it reduces in the
kernel. -/
def splitChar (sep : Char) : List Char → List (List Char)
  | [] => [[]]
  | c :: rest =>
      let r := splitChar sep rest
      if c = sep then [] :: r
      else
        match r with
        | [] => [[c]]
        | g :: gs => (c :: g) :: gs

/-- `str::split` on strings. -/
def strSplit (sep : Char) (s : String) : List String :=
  (splitChar sep s.data).map String.mk

/-- Insertion-ordered map, modelling `IndexMap`: `insert` overwrites the
value in place when the key is present and appends otherwise. -/
def mapInsert {κ α : Type} [BEq κ] (m : List (κ × α)) (k : κ) (v : α) :
    List (κ × α) :=
  if m.any (fun e => e.1 == k) then
    m.map (fun e => if e.1 == k then (k, v) else e)
  else m ++ [(k, v)]

/-- `IndexMap::get`. -/
def mapLookup {κ α : Type} [BEq κ] (m : List (κ × α)) (k : κ) : Option α :=
  (m.find? (fun e => e.1 == k)).map (fun e => e.2)

/-- Every entry of `mapInsert m k v` is either the new binding `(k, v)` or
an entry of `m`. -/
theorem mapInsert_mem {κ α : Type} [BEq κ] {m : List (κ × α)} {k : κ} {v : α}
    {e : κ × α} (he : e ∈ mapInsert m k v) : e = (k, v) ∨ e ∈ m := by
  unfold mapInsert at he
  by_cases hmem : m.any (fun e => e.1 == k)
  · rw [if_pos hmem] at he
    obtain ⟨x, hx, hfx⟩ := List.mem_map.mp he
    by_cases hk : (x.1 == k) = true
    · rw [if_pos hk] at hfx
      exact Or.inl hfx.symm
    · rw [if_neg hk] at hfx
      exact Or.inr (hfx ▸ hx)
  · rw [if_neg hmem] at he
    rcases List.mem_append.mp he with h | h
    · exact Or.inr h
    · exact Or.inl (List.mem_singleton.mp h)

/-- The capture of the regex `(?<name>.+)\s*->\s*(?<pattern>.*)` on one
grammar line.  The regex matches iff the line contains `->` at some
position `k ≥ 1`; greediness of `.+` picks the last such occurrence, the
`\s*` before `->` matches nothing (the greedy `.+` absorbs that
whitespace) and the `\s*` after `->` strips the leading whitespace of the
`pattern` capture. -/
def grammar_declaration (line : String) : Option (String × String) :=
  let cs := line.data
  let arrows := (List.range cs.length).filter
    (fun k => (cs.get? k == some '-') && (cs.get? (k+1) == some '>') && (1 ≤ k))
  match arrows.getLast? with
  | none => none
  | some k =>
      some (String.mk (cs.take k),
        String.mk ((cs.drop (k+2)).dropWhile (fun c => c.isWhitespace)))

/-- Classification of one symbol name (parser.rs lines 85-98): a name found
in the tokenizer's pattern store is a `Token` node, anything else a
`Grammar` node. -/
def classifyItem (patterns : List Pattern) (item : String) : NodeType :=
  match patterns.find? (fun p => p.name == item) with
  | some p => NodeType.token p.name
  | none => NodeType.grammar item

/-- One alternative: the trimmed variant text split on single spaces. -/
def parseVariant (patterns : List Pattern) (vp : String) : GrammarVariant :=
  (strSplit ' ' vp).map (classifyItem patterns)

/-- The body of a production: alternatives split on `|` and trimmed
(parser.rs line 79). -/
def parseVariants (patterns : List Pattern) (pat : String) : GrammarVariants :=
  ((strSplit '|' pat).map strTrim).map (parseVariant patterns)

/-- `Parser::eof()`: a `Token` node named `$` (its carried empty-regex
pattern is never consulted). -/
def Parser.eof : NodeType := NodeType.token EOF

/-- Line loop of `Parser::from_file` (parser.rs lines 74-118): lines that
do not match the declaration regex are skipped; on the line of index 0 the
synthetic root production `__ROOT -> <head> $` is inserted first. -/
def from_file_go (patterns : List Pattern) :
    List String → Nat → List (String × GrammarVariants) →
      List (String × GrammarVariants)
  | [], _index, grammars => grammars
  | line :: rest, index, grammars =>
      match grammar_declaration line with
      | some nb =>
          let name := (strTrim nb.1)
          let variants := parseVariants patterns nb.2
          let grammars' :=
            if index == 0 then
              mapInsert grammars ROOT [[NodeType.grammar name, Parser.eof]]
            else grammars
          from_file_go patterns rest (index+1) (mapInsert grammars' name variants)
      | none => from_file_go patterns rest (index+1) grammars

/-- The grammar map built by `Parser::from_file` from the lines of the
grammar file (the file content is given as its list of lines). -/
def load_grammars (patterns : List Pattern) (lines : List String) :
    List (String × GrammarVariants) :=
  from_file_go patterns lines 0 []

/-- Anchored matcher of the declaration `a = a`. -/
def patA : Pattern := ⟨"a", fun s => s == "a"⟩

/-- Anchored matcher of the declaration `b = b`. -/
def patB : Pattern := ⟨"b", fun s => s == "b"⟩

/-- Unfolding of the loader loop on a line matching the declaration. -/
theorem from_file_go_cons_some (patterns : List Pattern) (line : String)
    (rest : List String) (index : Nat) (grammars : List (String × GrammarVariants))
    (nb : String × String) (h : grammar_declaration line = some nb) :
    from_file_go patterns (line :: rest) index grammars =
      from_file_go patterns rest (index+1)
        (mapInsert
          (if index == 0 then
            mapInsert grammars ROOT [[NodeType.grammar (strTrim nb.1), Parser.eof]]
          else grammars)
          (strTrim nb.1) (parseVariants patterns nb.2)) := by
  have base :
      from_file_go patterns (line :: rest) index grammars =
        match grammar_declaration line with
        | some nb =>
            from_file_go patterns rest (index+1)
              (mapInsert
                (if index == 0 then
                  mapInsert grammars ROOT [[NodeType.grammar (strTrim nb.1), Parser.eof]]
                else grammars)
                (strTrim nb.1) (parseVariants patterns nb.2))
        | none => from_file_go patterns rest (index+1) grammars := rfl
  rw [base, h]

/-- Unfolding of the loader loop on a non-matching line. -/
theorem from_file_go_cons_none (patterns : List Pattern) (line : String)
    (rest : List String) (index : Nat) (grammars : List (String × GrammarVariants))
    (h : grammar_declaration line = none) :
    from_file_go patterns (line :: rest) index grammars =
      from_file_go patterns rest (index+1) grammars := by
  have base :
      from_file_go patterns (line :: rest) index grammars =
        match grammar_declaration line with
        | some nb =>
            from_file_go patterns rest (index+1)
              (mapInsert
                (if index == 0 then
                  mapInsert grammars ROOT [[NodeType.grammar (strTrim nb.1), Parser.eof]]
                else grammars)
                (strTrim nb.1) (parseVariants patterns nb.2))
        | none => from_file_go patterns rest (index+1) grammars := rfl
  rw [base, h]

/-- Inserting a key different from the head key leaves the head entry in
place. -/
theorem mapInsert_head {α : Type} (k0 : String) (v0 : α)
    (tail : List (String × α)) (k : String) (v : α) (hk : k ≠ k0) :
    ∃ tail', mapInsert ((k0, v0) :: tail) k v = (k0, v0) :: tail' := by
  unfold mapInsert
  by_cases hmem : ((k0, v0) :: tail).any (fun e => e.1 == k)
  · rw [if_pos hmem]
    refine ⟨tail.map (fun e => if e.1 == k then (k, v) else e), ?_⟩
    simp only [List.map_cons]
    have : (k0 == k) = false := by
      simp only [beq_eq_false_iff_ne]
      exact fun h => hk h.symm
    rw [this]
    simp
  · rw [if_neg hmem]
    exact ⟨tail ++ [(k, v)], by simp⟩

/-- Once the map starts with the root entry and the remaining lines never
redeclare `__ROOT`, the loader (running with index ≥ 1) keeps the root
entry first and unchanged. -/
theorem from_file_go_head (patterns : List Pattern) (v : GrammarVariants) :
    ∀ (rest : List String) (index : Nat) (tail : List (String × GrammarVariants)),
      1 ≤ index →
      (∀ l ∈ rest, ((grammar_declaration l).map (fun nb => (strTrim nb.1))) ≠ some ROOT) →
      ∃ tail', from_file_go patterns rest index ((ROOT, v) :: tail) =
        (ROOT, v) :: tail' := by
  intro rest
  induction rest with
  | nil => exact fun index tail _ _ => ⟨tail, rfl⟩
  | cons l rest' ih =>
      intro index tail hidx hroot
      cases hdecl : grammar_declaration l with
      | some nb =>
          rw [from_file_go_cons_some _ _ _ _ _ _ hdecl]
          have hne : (index == 0) = false := by
            simp only [beq_eq_false_iff_ne]
            omega
          rw [hne]
          simp only [Bool.false_eq_true, if_false]
          have hname : (strTrim nb.1) ≠ ROOT := by
            intro hcontr
            have := hroot l (List.mem_cons_self _ _)
            rw [hdecl] at this
            simp only [Option.map_some'] at this
            exact this (by rw [hcontr])
          obtain ⟨tail2, htail2⟩ := mapInsert_head ROOT v tail (strTrim nb.1)
            (parseVariants patterns nb.2) hname
          rw [htail2]
          exact ih (index+1) tail2 (by omega)
            (fun l' hl' => hroot l' (List.mem_cons_of_mem _ hl'))
      | none =>
          rw [from_file_go_cons_none _ _ _ _ _ hdecl]
          exact ih (index+1) tail (by omega)
            (fun l' hl' => hroot l' (List.mem_cons_of_mem _ hl'))

/-- C6 counterexample: a grammar file whose first line is malformed (no
`->`) but whose second line declares `S -> a`.  The loader skips the first
line, and — because the root injection is gated on the line index being 0
rather than on "first parsed production" — never inserts `__ROOT`: the
first (and only) entry of the loaded grammar is `S` itself. -/
theorem C6_counterexample :
    load_grammars [patA] ["junk", "S -> a"] = [("S", [[NodeType.token "a"]])] ∧
      ¬ ((load_grammars [patA] ["junk", "S -> a"]).head?.map Prod.fst = some ROOT) :=
  ⟨rfl, by decide⟩

/-- C6 amended: the `__ROOT` injection happens only when the line of index
0 itself parses as a production.  In that case (and provided no line
declares a head named `__ROOT`) the first entry of the loaded grammar is
`__ROOT` with the single alternative `[first-head, Terminal "$"]`. -/
theorem C6_root_injection (patterns : List Pattern) (lines : List String)
    (l0 : String) (rest : List String) (nb : String × String)
    (hl : lines = l0 :: rest)
    (hd : grammar_declaration l0 = some nb)
    (hroot : ∀ l ∈ lines, ((grammar_declaration l).map (fun x => (strTrim x.1))) ≠ some ROOT) :
    (load_grammars patterns lines).head? =
      some (ROOT, [[NodeType.grammar (strTrim nb.1), Parser.eof]]) := by
  subst hl
  unfold load_grammars
  rw [from_file_go_cons_some _ _ _ _ _ _ hd]
  have h0 : mapInsert ([] : List (String × GrammarVariants)) ROOT
      [[NodeType.grammar (strTrim nb.1), Parser.eof]] =
      [(ROOT, [[NodeType.grammar (strTrim nb.1), Parser.eof]])] := rfl
  simp only [Nat.zero_eq, beq_self_eq_true, if_true, h0]
  have hname : (strTrim nb.1) ≠ ROOT := by
    intro hcontr
    have := hroot l0 (List.mem_cons_self _ _)
    rw [hd] at this
    simp only [Option.map_some'] at this
    exact this (by rw [hcontr])
  obtain ⟨tail2, htail2⟩ := mapInsert_head ROOT _ [] (strTrim nb.1)
    (parseVariants patterns nb.2) hname
  rw [htail2]
  obtain ⟨tail3, htail3⟩ := from_file_go_head patterns _ rest 1 tail2 Nat.le.refl
    (fun l hl' => hroot l (List.mem_cons_of_mem _ hl'))
  rw [htail3]
  rfl

/-- C6 witness: the amended statement applied to the one-line grammar file
`S -> a` over the pattern store `{a}`. -/
theorem C6_root_injection_witness :
    (load_grammars [patA] ["S -> a"]).head? =
      some (ROOT, [[NodeType.grammar "S", Parser.eof]]) := by
  have h := C6_root_injection [patA] ["S -> a"] "S -> a" [] ("S ", "a") rfl
    (by decide) (by decide)
  exact h

/-! ### FIRST / FOLLOW sets and the parse table (parser.rs) -/

/-- Insertion-ordered set of strings, modelling `IndexSet<String>`:
`insert` is a no-op on an already-present element and appends otherwise. -/
def insSet (s : List String) (x : String) : List String :=
  if x ∈ s then s else s ++ [x]

/-- `type FirstSet = IndexMap<GrammarName, IndexSet<TokenName>>`. -/
abbrev FirstSet := List (String × List String)

/-- `type FollowSet = IndexMap<GrammarName, IndexSet<TokenName>>`. -/
abbrev FollowSet := List (String × List String)

/-- `type ParsingTable = IndexMap<(GrammarName, TokenName), GrammarVariant>`. -/
abbrev ParsingTable := List ((String × String) × GrammarVariant)

/-- `is_epsilon` (parser.rs lines 388-398): a variant is the epsilon
alternative iff it is exactly `[Token "epsilon"]`. -/
def is_epsilon (variant : GrammarVariant) : Bool :=
  match variant with
  | [NodeType.token name] => name == EPSILON
  | _ => false

/-- `has_epsilon` (parser.rs lines 379-386). -/
def has_epsilon (variants : GrammarVariants) : Bool :=
  variants.any is_epsilon

/-- The two call shapes of the recursive `build_first` (parser.rs lines
270-301): computing FIRST of a named nonterminal, or folding the
alternatives of a production into a partial FIRST set `nodes`. -/
inductive FirstCall
  | grammarCall (grammar_name : String)
  | variantsCall (vs : GrammarVariants) (nodes : List String)

/-- `build_first` (parser.rs lines 270-301), as a fuel-indexed recursion
over explicit call shapes (the Rust recursion does not terminate on a
cycle of leading nonterminals; running out of fuel yields `none`).  A
memoized name returns immediately; a name that is no key of the grammar
map gets an empty FIRST set; otherwise only the head symbol of each
alternative is inspected, recursing on leading nonterminals.  The
returned pair is the updated memo map together with the `nodes`
accumulator (meaningful only for `variantsCall`). -/
def build_first_go (grammars : List (String × GrammarVariants)) :
    Nat → FirstCall → FirstSet → Option (FirstSet × List String)
  | 0, _, _ => none
  | fuel + 1, FirstCall.grammarCall grammar_name, first =>
      if (mapLookup first grammar_name).isSome then some (first, [])
      else
        match mapLookup grammars grammar_name with
        | some variants =>
            match build_first_go grammars fuel (FirstCall.variantsCall variants []) first with
            | none => none
            | some fn => some (mapInsert fn.1 grammar_name fn.2, [])
        | none => some (mapInsert first grammar_name [], [])
  | _fuel + 1, FirstCall.variantsCall [] nodes, first => some (first, nodes)
  | fuel + 1, FirstCall.variantsCall (variant :: rest) nodes, first =>
      match variant.head? with
      | none => build_first_go grammars fuel (FirstCall.variantsCall rest nodes) first
      | some (NodeType.token name) =>
          build_first_go grammars fuel (FirstCall.variantsCall rest (insSet nodes name)) first
      | some (NodeType.grammar name) =>
          match build_first_go grammars fuel (FirstCall.grammarCall name) first with
          | none => none
          | some f1 =>
              let nodes' :=
                match mapLookup f1.1 name with
                | some children => children.foldl insSet nodes
                | none => nodes
              build_first_go grammars fuel (FirstCall.variantsCall rest nodes') f1.1

/-- `build_first(grammar_name, grammars, first)`. -/
def build_first (fuel : Nat) (grammar_name : String)
    (grammars : List (String × GrammarVariants)) (first : FirstSet) :
    Option FirstSet :=
  (build_first_go grammars fuel (FirstCall.grammarCall grammar_name) first).map Prod.fst

/-- The loop `for grammar in grammars.keys() { build_first(grammar, …) }`
of `Parser::from_file` (parser.rs lines 123-125). -/
def build_first_keys (fuel : Nat) (grammars : List (String × GrammarVariants)) :
    List String → FirstSet → Option FirstSet
  | [], first => some first
  | k :: ks, first =>
      match build_first fuel k grammars first with
      | none => none
      | some first' => build_first_keys fuel grammars ks first'

/-- The complete FIRST map of a grammar. -/
def build_first_all (fuel : Nat) (grammars : List (String × GrammarVariants)) :
    Option FirstSet :=
  build_first_keys fuel grammars (grammars.map Prod.fst) []

/-- The inner symbol scan of `build_follow` (parser.rs lines 319-364) over
one alternative, carrying the `found`/`resolved` flags; a `break` in the
source is an early return here.  `grammar` is the head of the production
being scanned, `grammar_name` the nonterminal whose FOLLOW set is being
built, `len` the alternative's length. -/
def follow_scan (grammar_name grammar : String) (variants : GrammarVariants)
    (first : FirstSet) (follow : FollowSet) (len : Nat) :
    List NodeType → Nat → List String → Bool → Bool →
      (List String × Bool × Bool)
  | [], _index, nodes, found, resolved => (nodes, found, resolved)
  | node :: rest, index, nodes, found, resolved =>
      match node with
      | NodeType.token name =>
          if name == EPSILON then
            -- epsilon tokens cannot be included in follow sets
            follow_scan grammar_name grammar variants first follow len rest
              (index+1) nodes found resolved
          else
            let found_after_grammar := found && name != "$"
            let found_as_last_token_in_grammar :=
              (grammar == grammar_name) && (index == len - 1) && (len != 1)
            if found_after_grammar || found_as_last_token_in_grammar then
              (insSet nodes name, found, true)
            else
              follow_scan grammar_name grammar variants first follow len rest
                (index+1) nodes found resolved
      | NodeType.grammar name =>
          if name == grammar_name then
            follow_scan grammar_name grammar variants first follow len rest
              (index+1) nodes true resolved
          else if found then
            let nodes1 :=
              match mapLookup first name with
              | some first_nodes =>
                  first_nodes.foldl
                    (fun acc n => if n == EPSILON then acc else insSet acc n) nodes
              | none => nodes
            let nodes2 :=
              if has_epsilon variants then
                match mapLookup follow grammar with
                | some follow_nodes => follow_nodes.foldl insSet nodes1
                | none => nodes1
              else nodes1
            follow_scan grammar_name grammar variants first follow len rest
              (index+1) nodes2 found true
          else
            follow_scan grammar_name grammar variants first follow len rest
              (index+1) nodes found resolved

/-- One alternative of `build_follow`, including the post-scan
`found && !resolved && grammar != grammar_name` propagation of
`FOLLOW(grammar)` (parser.rs lines 366-372). -/
def follow_variant (grammar_name grammar : String) (variants : GrammarVariants)
    (first : FirstSet) (follow : FollowSet) (nodes : List String)
    (variant : GrammarVariant) : List String :=
  let r := follow_scan grammar_name grammar variants first follow variant.length
    variant 0 nodes false false
  if r.2.1 && !r.2.2 && (grammar != grammar_name) then
    match mapLookup follow grammar with
    | some follow_nodes => follow_nodes.foldl insSet r.1
    | none => r.1
  else r.1

/-- `build_follow` (parser.rs lines 303-377): an early return when the
name is memoized; otherwise every alternative of every production is
scanned and the resulting set inserted. -/
def build_follow (grammar_name : String)
    (grammars : List (String × GrammarVariants)) (first : FirstSet)
    (follow : FollowSet) : FollowSet :=
  if (mapLookup follow grammar_name).isSome then follow
  else
    let nodes := grammars.foldl
      (fun nodes gv =>
        gv.2.foldl (follow_variant grammar_name gv.1 gv.2 first follow) nodes)
      []
    mapInsert follow grammar_name nodes

/-- The loop `for grammar in grammars.keys() { build_follow(grammar, …) }`
of `Parser::from_file` (parser.rs lines 127-129). -/
def build_follow_all (grammars : List (String × GrammarVariants))
    (first : FirstSet) : FollowSet :=
  grammars.foldl (fun follow gv => build_follow gv.1 grammars first follow) []

/-- `insert_parsing_table_row` (parser.rs lines 436-451): insert the
variant at `(grammar, token)` for every non-epsilon token. -/
def insert_parsing_table_row (table : ParsingTable) (grammar : String)
    (tokens : List String) (variant : GrammarVariant) : ParsingTable :=
  tokens.foldl
    (fun table token =>
      if token != EPSILON then mapInsert table (grammar, token) variant
      else table)
    table

/-- `build_parsing_table` (parser.rs lines 400-434). -/
def build_parsing_table (grammars : List (String × GrammarVariants))
    (first : FirstSet) (follow : FollowSet) : ParsingTable :=
  grammars.foldl
    (fun table gv =>
      gv.2.foldl
        (fun table variant =>
          if is_epsilon variant then
            match mapLookup follow gv.1 with
            | some tokens => insert_parsing_table_row table gv.1 tokens variant
            | none => table
          else
            match mapLookup first gv.1 with
            | some tokens =>
                match variant.head? with
                | some (NodeType.token name) =>
                    if tokens.contains name then
                      insert_parsing_table_row table gv.1 [name] variant
                    else table
                | _ => insert_parsing_table_row table gv.1 tokens variant
            | none => table)
        table)
    []

/-! ### Claim C4: contents of FOLLOW sets -/

/-- Members of `insSet s x` come from `s` or are `x`. -/
theorem insSet_mem {s : List String} {x a : String} (h : a ∈ insSet s x) :
    a ∈ s ∨ a = x := by
  unfold insSet at h
  by_cases hx : x ∈ s
  · rw [if_pos hx] at h
    exact Or.inl h
  · rw [if_neg hx] at h
    rcases List.mem_append.mp h with h | h
    · exact Or.inl h
    · exact Or.inr (List.mem_singleton.mp h)

/-- Folding `insSet` over a source list free of `a` keeps `a` out. -/
theorem foldl_insSet_not_mem {a : String} :
    ∀ {xs nodes : List String}, a ∉ nodes → a ∉ xs →
      a ∉ xs.foldl insSet nodes := by
  intro xs
  induction xs with
  | nil => exact fun h _ => h
  | cons x xs ih =>
      intro nodes hn hxs
      simp only [List.foldl_cons]
      refine ih ?_ (fun h => hxs (List.mem_cons_of_mem _ h))
      intro hmem
      rcases insSet_mem hmem with h | h
      · exact hn h
      · exact hxs (h ▸ List.mem_cons_self _ _)

/-- The epsilon-filtered fold used when FIRST sets are copied into FOLLOW
sets never introduces `epsilon`. -/
theorem foldl_insSet_filter_eps :
    ∀ (xs : List String) (nodes : List String), EPSILON ∉ nodes →
      EPSILON ∉ xs.foldl
        (fun acc n => if n == EPSILON then acc else insSet acc n) nodes := by
  intro xs
  induction xs with
  | nil => exact fun nodes h => h
  | cons x xs ih =>
      intro nodes hn
      simp only [List.foldl_cons]
      by_cases hx : (x == EPSILON) = true
      · rw [if_pos hx]
        exact ih nodes hn
      · rw [if_neg hx]
        refine ih _ ?_
        intro hmem
        rcases insSet_mem hmem with h | h
        · exact hn h
        · exact hx (h ▸ beq_self_eq_true _)

/-- The sets of a FOLLOW map are all free of `epsilon`. -/
def followNoEps (m : FollowSet) : Prop := ∀ e ∈ m, EPSILON ∉ e.2

theorem mapLookup_noEps {m : FollowSet} (hm : followNoEps m) {k : String}
    {v : List String} (h : mapLookup m k = some v) : EPSILON ∉ v := by
  unfold mapLookup at h
  cases hf : m.find? (fun e => e.1 == k) with
  | none => rw [hf] at h; cases h
  | some e =>
      rw [hf] at h
      simp only [Option.map_some', Option.some.injEq] at h
      exact h ▸ hm e (List.mem_of_find?_eq_some hf)

/-- The symbol scan of `build_follow` never puts `epsilon` into `nodes`:
epsilon tokens are skipped, FIRST sets are copied with an epsilon filter,
and FOLLOW sets of earlier nonterminals are epsilon-free by the invariant. -/
theorem follow_scan_noEps (grammar_name grammar : String)
    (variants : GrammarVariants) (first : FirstSet) (follow : FollowSet)
    (len : Nat) (hfollow : followNoEps follow) :
    ∀ (variant : List NodeType) (index : Nat) (nodes : List String)
      (found resolved : Bool), EPSILON ∉ nodes →
      EPSILON ∉ (follow_scan grammar_name grammar variants first follow len
        variant index nodes found resolved).1 := by
  intro variant
  induction variant with
  | nil => exact fun _ _ _ _ hn => hn
  | cons node rest ih =>
      intro index nodes found resolved hn
      match node with
      | NodeType.token name =>
          simp only [follow_scan]
          by_cases he : (name == EPSILON) = true
          · rw [if_pos he]
            exact ih _ _ _ _ hn
          · rw [if_neg he]
            by_cases hcond : (found && name != "$"
                || (grammar == grammar_name) && (index == len - 1) && (len != 1)) = true
            · rw [if_pos hcond]
              intro hmem
              rcases insSet_mem hmem with h | h
              · exact hn h
              · exact he (h ▸ beq_self_eq_true _)
            · rw [if_neg hcond]
              exact ih _ _ _ _ hn
      | NodeType.grammar name =>
          simp only [follow_scan]
          by_cases hg : (name == grammar_name) = true
          · rw [if_pos hg]
            exact ih _ _ _ _ hn
          · rw [if_neg hg]
            by_cases hf : found = true
            · rw [if_pos hf]
              refine ih _ _ _ _ ?_
              have h1 : EPSILON ∉
                  (match mapLookup first name with
                    | some first_nodes =>
                        first_nodes.foldl
                          (fun acc n => if n == EPSILON then acc else insSet acc n) nodes
                    | none => nodes) := by
                cases hl : mapLookup first name with
                | some first_nodes => exact foldl_insSet_filter_eps first_nodes nodes hn
                | none => exact hn
              by_cases hhe : has_epsilon variants = true
              · rw [if_pos hhe]
                cases hl2 : mapLookup follow grammar with
                | some follow_nodes =>
                    exact foldl_insSet_not_mem h1 (mapLookup_noEps hfollow hl2)
                | none => exact h1
              · rw [if_neg hhe]
                exact h1
            · rw [if_neg hf]
              exact ih _ _ _ _ hn

/-- One alternative of `build_follow` keeps `nodes` free of `epsilon`. -/
theorem follow_variant_noEps (grammar_name grammar : String)
    (variants : GrammarVariants) (first : FirstSet) (follow : FollowSet)
    (nodes : List String) (variant : GrammarVariant)
    (hfollow : followNoEps follow) (hn : EPSILON ∉ nodes) :
    EPSILON ∉ follow_variant grammar_name grammar variants first follow
      nodes variant := by
  unfold follow_variant
  have hscan := follow_scan_noEps grammar_name grammar variants first follow
    variant.length hfollow variant 0 nodes false false hn
  by_cases hcond : ((follow_scan grammar_name grammar variants first follow
      variant.length variant 0 nodes false false).2.1
      && !(follow_scan grammar_name grammar variants first follow
        variant.length variant 0 nodes false false).2.2
      && (grammar != grammar_name)) = true
  · rw [if_pos hcond]
    cases hl : mapLookup follow grammar with
    | some follow_nodes =>
        exact foldl_insSet_not_mem hscan (mapLookup_noEps hfollow hl)
    | none => exact hscan
  · rw [if_neg hcond]
    exact hscan

/-- The full production scan of `build_follow` keeps `nodes` free of
`epsilon`. -/
theorem build_follow_nodes_noEps (grammar_name : String) (first : FirstSet)
    (follow : FollowSet) (hfollow : followNoEps follow) :
    ∀ (gs : List (String × GrammarVariants)) (nodes : List String),
      EPSILON ∉ nodes →
      EPSILON ∉ gs.foldl
        (fun nodes gv =>
          gv.2.foldl (follow_variant grammar_name gv.1 gv.2 first follow) nodes)
        nodes := by
  intro gs
  induction gs with
  | nil => exact fun _ h => h
  | cons gv gs ih =>
      intro nodes hn
      simp only [List.foldl_cons]
      refine ih _ ?_
      have : ∀ (vs : List GrammarVariant) (nodes : List String), EPSILON ∉ nodes →
          EPSILON ∉ vs.foldl (follow_variant grammar_name gv.1 gv.2 first follow) nodes := by
        intro vs
        induction vs with
        | nil => exact fun _ h => h
        | cons v vs ihv =>
            intro nodes hn
            simp only [List.foldl_cons]
            exact ihv _ (follow_variant_noEps _ _ _ _ _ _ _ hfollow hn)
      exact this gv.2 nodes hn

/-- `build_follow` preserves epsilon-freeness of the FOLLOW map. -/
theorem build_follow_noEps (grammar_name : String)
    (grammars : List (String × GrammarVariants)) (first : FirstSet)
    (follow : FollowSet) (hfollow : followNoEps follow) :
    followNoEps (build_follow grammar_name grammars first follow) := by
  unfold build_follow
  by_cases hmemo : (mapLookup follow grammar_name).isSome
  · rw [if_pos hmemo]
    exact hfollow
  · rw [if_neg hmemo]
    intro e he
    rcases mapInsert_mem he with h | h
    · rw [h]
      exact build_follow_nodes_noEps grammar_name first follow hfollow
        grammars [] (by intro h; cases h)
    · exact hfollow e h

/-- Every FOLLOW set computed by the loader's FOLLOW loop is free of
`epsilon`, for every grammar and every FIRST map. -/
theorem build_follow_all_noEps (grammars : List (String × GrammarVariants))
    (first : FirstSet) : followNoEps (build_follow_all grammars first) := by
  unfold build_follow_all
  have : ∀ (gs : List (String × GrammarVariants)) (follow : FollowSet),
      followNoEps follow →
      followNoEps (gs.foldl (fun follow gv => build_follow gv.1 grammars first follow)
        follow) := by
    intro gs
    induction gs with
    | nil => exact fun _ h => h
    | cons gv gs ih =>
        intro follow hfollow
        simp only [List.foldl_cons]
        exact ih _ (build_follow_noEps gv.1 grammars first follow hfollow)
  exact this grammars [] (by intro e he; cases he)

/-- The grammar map loaded from the one-line file `S -> a` over the
pattern store `{a}`. -/
def gSa : List (String × GrammarVariants) :=
  load_grammars (loadedTokenizer [patA]).patterns ["S -> a"]

/-- Its FIRST map (fuel 10 amply suffices). -/
def firstSa : FirstSet := (build_first_all 10 gSa).getD []

/-- Its FOLLOW map. -/
def followSa : FollowSet := build_follow_all gSa firstSa

/-- C4 counterexample: on the loaded grammar `S -> a`, the computed
FOLLOW(`__ROOT`) is exactly `{$}` — the rule for a terminal that is the
last symbol of an alternative of its own production fires on the injected
`__ROOT -> S $`, and the terminal name `$` is inserted. -/
theorem C4_counterexample :
    mapLookup followSa ROOT = some ["$"] ∧
      "$" ∈ (mapLookup followSa ROOT).getD [] :=
  ⟨rfl, by decide⟩

/-- C4 amended: `epsilon` indeed never appears in any computed FOLLOW set
(for every grammar and FIRST map), but `$` does: FOLLOW(`__ROOT`) of the
loaded grammar `S -> a` contains `$`, and it even propagates to
FOLLOW(`S`). -/
theorem C4_follow_no_epsilon :
    (∀ (grammars : List (String × GrammarVariants)) (first : FirstSet)
      (A : String), EPSILON ∉ (mapLookup (build_follow_all grammars first) A).getD []) ∧
    "$" ∈ (mapLookup followSa ROOT).getD [] ∧
    "$" ∈ (mapLookup followSa "S").getD [] := by
  refine ⟨fun grammars first A => ?_, by decide, by decide⟩
  cases hl : mapLookup (build_follow_all grammars first) A with
  | none => simp
  | some v =>
      simpa using mapLookup_noEps (build_follow_all_noEps grammars first) hl

/-! ### The predictive parser (parser.rs `Parser::parse`) -/

/-- `parser.rs` `enum AST`: parse-tree nodes. -/
inductive AST
  | token (name value : String)
  | grammar (name : String) (children : List AST)

mutual

/-- The left-to-right sequence of `(token_name, lexeme)` pairs at the
leaves of a tree. -/
def AST.leaves : AST → List (String × String)
  | AST.token n v => [(n, v)]
  | AST.grammar _ children => AST.leavesList children

def AST.leavesList : List AST → List (String × String)
  | [] => []
  | c :: cs => AST.leaves c ++ AST.leavesList cs

end

/-- Read the node at a path of child indices. -/
def AST.getAt : AST → List Nat → Option AST
  | t, [] => some t
  | AST.token _ _, _ :: _ => none
  | AST.grammar _ children, i :: path =>
      match children.get? i with
      | some c => AST.getAt c path
      | none => none

/-- Replace the node at a path of child indices (identity on a dangling
path). -/
def AST.setAt : AST → List Nat → AST → AST
  | _, [], new => new
  | AST.token n v, _ :: _, _ => AST.token n v
  | AST.grammar n children, i :: path, new =>
      match children.get? i with
      | some c => AST.grammar n (children.set i (AST.setAt c path new))
      | none => AST.grammar n children

/-- One entry of the parser's work stack.  The Rust stack holds
`Rc<RefCell<AST>>` nodes shared with the tree under construction; here an
entry is the address of the shared node in the tree.  The bottommost
entry is the EOF leaf `AST::Token{"$","$"}` created before the root; it
is not part of the tree and is represented by its own constructor. -/
inductive StackEntry
  | eofNode
  | addr (path : List Nat)
deriving DecidableEq, Repr

/-- Outcome of `Parser::parse`:  a tree, a diagnostic, or the abort of
`children.first().unwrap()` on a childless root (`aborted`). -/
inductive ParseOutcome
  | ok (t : AST)
  | err (msg : String)
  | aborted

/-- One digit of `char::escape_default`'s hex output. -/
def hexOfNat (n : Nat) : String :=
  String.mk (Nat.toDigits 16 n)

/-- Rust `char::escape_default`: named escapes for tab, carriage return,
newline, backslash and both quotes; printable ASCII is kept; everything
else becomes a `\u` escape. -/
def escapeChar (c : Char) : String :=
  if c = '\t' then "\\t"
  else if c = '\r' then "\\r"
  else if c = '\n' then "\\n"
  else if c = '\\' then "\\\\"
  else if c = '\'' then "\\'"
  else if c = '"' then "\\\""
  else if 0x20 ≤ c.toNat ∧ c.toNat ≤ 0x7e then String.mk [c]
  else "\\u\x7b" ++ hexOfNat c.toNat ++ "\x7d"

/-- Rust `str::escape_default`. -/
def escape_default (s : String) : String :=
  String.join (s.data.map escapeChar)

/-- `unexpected_token` (parser.rs lines 453-458). -/
def unexpected_token (token : Token) : String :=
  "Unexpected token " ++ escape_default token.value ++ " on line " ++
    Nat.repr token.line ++ ", column " ++ Nat.repr token.column ++ "."

/-- A fresh child node for one symbol of the chosen alternative
(parser.rs lines 210-223): terminals become leaves with an empty lexeme,
nonterminals become childless internal nodes. -/
def mkChild : NodeType → AST
  | NodeType.token name => AST.token name ""
  | NodeType.grammar name => AST.grammar name []

/-- The result extraction of `Parser::parse` (parser.rs lines 261-266):
the root's first child is returned and the `__ROOT` wrapper discarded;
`children.first().unwrap()` aborts when the root has no children.  The
fall-through `Ok(root)` for a non-`Grammar` root is kept for fidelity. -/
def finishResult (tree : AST) : ParseOutcome :=
  match tree with
  | AST.grammar _ children =>
      match children.head? with
      | some c => ParseOutcome.ok c
      | none => ParseOutcome.aborted
  | t => ParseOutcome.ok t

/-- The main loop of `Parser::parse` (parser.rs lines 192-259), fuel-
indexed (`none` = fuel exhausted; the Rust loop diverges on epsilon
cycles).  The stack's head is its top; `current` is `next_token` and
`cursor` its index in `tokens`.  Popping an internal node looks up
`table[(name, current.name)]`: a miss is an `Unexpected token` error, an
epsilon alternative leaves the node childless (`continue`), and any other
alternative allocates one fresh child per symbol, prepends them to the
node's children and pushes their addresses with the leftmost on top.
Popping a leaf compares names: the EOF leaf ends the parse, another equal
name writes the lexeme and advances, a mismatch is an `Unexpected token`
error.  An empty stack before EOF is likewise an `Unexpected token`
error. -/
def parse_loop (table : ParsingTable) (tokens : List Token) :
    Nat → AST → List StackEntry → Token → Nat → Option ParseOutcome
  | 0, _, _, _, _ => none
  | fuel + 1, tree, stack, current, cursor =>
      match stack with
      | [] => some (ParseOutcome.err (unexpected_token current))
      | entry :: rest =>
          match entry with
          | StackEntry.eofNode =>
              -- the bottom leaf `AST::Token{"$","$"}`
              if EOF == current.name then finishResult tree
              else some (ParseOutcome.err (unexpected_token current))
          | StackEntry.addr a =>
              match AST.getAt tree a with
              | none => some ParseOutcome.aborted   -- unreachable: stack addresses are valid
              | some (AST.grammar name children) =>
                  match mapLookup table (name, current.name) with
                  | none => some (ParseOutcome.err (unexpected_token current))
                  | some variant =>
                      if is_epsilon variant then
                        parse_loop table tokens fuel tree rest current cursor
                      else
                        let tree' := AST.setAt tree a
                          (AST.grammar name (variant.map mkChild ++ children))
                        let pushed := (List.range variant.length).map
                          (fun j => StackEntry.addr (a ++ [j]))
                        parse_loop table tokens fuel tree' (pushed ++ rest)
                          current cursor
              | some (AST.token name _value) =>
                  if name == current.name then
                    if name == EOF then finishResult tree
                    else
                      let tree' := AST.setAt tree a (AST.token name current.value)
                      match tokens.get? (cursor + 1) with
                      | some next =>
                          parse_loop table tokens fuel tree' rest next (cursor + 1)
                      | none => some (ParseOutcome.err "Unexpected end of stream.")
                  else some (ParseOutcome.err (unexpected_token current))

/-- `struct Parser` (parser.rs lines 12-18). -/
structure Parser where
  grammars : List (String × GrammarVariants)
  first : FirstSet
  follow : FollowSet
  table : ParsingTable
  tokenizer : Tokenizer

/-- `Parser::from_file` (parser.rs lines 64-139) on the lines of a grammar
file: load the productions, then FIRST (fuel-indexed, since the Rust
recursion can diverge), FOLLOW, and the parse table. -/
def Parser.from_file (tokenizer : Tokenizer) (lines : List String)
    (fuel : Nat) : Option Parser :=
  let grammars := load_grammars tokenizer.patterns lines
  match build_first_all fuel grammars with
  | none => none
  | some first =>
      let follow := build_follow_all grammars first
      let table := build_parsing_table grammars first follow
      some ⟨grammars, first, follow, table, tokenizer⟩

/-- `Parser::parse` (parser.rs lines 151-267): tokenize, append the
synthetic EOF token `($, $, 0, 0)`, build the stack `[eof leaf, root]`
(root on top) and run the loop from the first token. -/
def Parser.parse (p : Parser) (content : String) (fuel : Nat) :
    Option ParseOutcome :=
  match p.tokenizer.parse content with
  | Except.error e => some (ParseOutcome.err e)
  | Except.ok ts =>
      let tokens := ts ++ [⟨EOF, EOF, 0, 0⟩]
      match (p.grammars.map Prod.fst).head? with
      | none => some (ParseOutcome.err "Parser doesn't have any grammars.")
      | some root_name =>
          match tokens.head? with
          | none => some (ParseOutcome.err "Unexpected end of stream.")
          | some tok0 =>
              parse_loop p.table tokens fuel (AST.grammar root_name [])
                [StackEntry.addr [], StackEntry.eofNode] tok0 0

/-- The tokenizer loaded from the lexical specification declaring `a` and
`b`. -/
def lexAB : Tokenizer := loadedTokenizer [patA, patB]

/-- C3 counterexample: with terminals `a`, `b` and grammar `S -> A b`,
`A -> a | epsilon`, parsing `b` does not succeed: FIRST only inspects the
leading symbol of each alternative, so `b` never enters FIRST(S), the
table has no entry at `(S, b)` or `(__ROOT, b)`, and the parse fails with
`Unexpected token b on line 1, column 1.` instead of returning the tree
`S[A[], b]`. -/
theorem C3_counterexample :
    (Parser.from_file lexAB ["S -> A b", "A -> a | epsilon"] 20).map
        (fun p => p.parse "b" 100) =
      some (some (ParseOutcome.err "Unexpected token b on line 1, column 1.")) := rfl

/-- C3 amended: on the S3 grammar, input `b` fails with `Unexpected token
b on line 1, column 1.`; input `a b` succeeds with the tree `S[A[a], b]`;
input `a a b` fails with `Unexpected token a on line 1, column 3.`. -/
theorem C3_s3_behaviour :
    (Parser.from_file lexAB ["S -> A b", "A -> a | epsilon"] 20).map
        (fun p => (p.parse "b" 100, p.parse "a b" 100, p.parse "a a b" 100)) =
      some
        (some (ParseOutcome.err "Unexpected token b on line 1, column 1."),
          some (ParseOutcome.ok
            (AST.grammar "S" [AST.grammar "A" [AST.token "a" "a"], AST.token "b" "b"])),
          some (ParseOutcome.err "Unexpected token a on line 1, column 3.")) := rfl

/-- C5 counterexample: with grammar `S -> a b` and input `a`, the parse
fails — but with `Unexpected token $ on line 0, column 0.`, not with
`Unexpected end of stream.`: the synthetic EOF token is appended to the
stream, so exhaustion surfaces as a mismatch between the expected leaf `b`
and the token `$`, and the end-of-stream branches are unreachable. -/
theorem C5_counterexample :
    (Parser.from_file lexAB ["S -> a b"] 20).map (fun p => p.parse "a" 100) =
      some (some (ParseOutcome.err "Unexpected token $ on line 0, column 0.")) ∧
      ("Unexpected token $ on line 0, column 0." : String) ≠
        "Unexpected end of stream." :=
  ⟨rfl, by decide⟩

/-- C5 amended: with grammar `S -> a b` and input `a`, parse fails with
exactly the diagnostic `Unexpected token $ on line 0, column 0.`. -/
theorem C5_eof_diagnostic :
    (Parser.from_file lexAB ["S -> a b"] 20).map (fun p => p.parse "a" 100) =
      some (some (ParseOutcome.err "Unexpected token $ on line 0, column 0.")) := rfl

/-- C7 counterexample: when the first grammar line is malformed, `__ROOT`
is never injected (compare C6), the loader's first entry is `S` itself,
and the returned "tree" is the root's first child — here the single leaf
`a`.  The parse succeeds on `a b`, but the leaves of the returned tree,
`[(a, a)]`, are not the tokenizer output `[(a, a), (b, b)]`. -/
theorem C7_counterexample :
    (Parser.from_file lexAB ["junk", "S -> a b"] 20).map
        (fun p => p.parse "a b" 100) =
      some (some (ParseOutcome.ok (AST.token "a" "a"))) ∧
    (lexAB.parse "a b").map (fun ts => ts.map (fun t => (t.name, t.value))) =
      Except.ok [("a", "a"), ("b", "b")] ∧
    AST.leaves (AST.token "a" "a") ≠ [("a", "a"), ("b", "b")] :=
  ⟨rfl, rfl, by decide⟩

/-! ### Claim C10: termination of the FIRST recursion -/

/-- `B` is the leading symbol of some alternative of `A`'s production:
the edge along which `build_first` recurses. -/
def leadsTo (grammars : List (String × GrammarVariants)) (A B : String) : Prop :=
  ∃ variants, mapLookup grammars A = some variants ∧
    ∃ v ∈ variants, v.head? = some (NodeType.grammar B)

/-- Fuel monotonicity: a result reached with `n` units of fuel is reached,
unchanged, with any larger amount. -/
theorem build_first_go_mono (grammars : List (String × GrammarVariants)) :
    ∀ (n m : Nat) (c : FirstCall) (first : FirstSet) (r : FirstSet × List String),
      n ≤ m → build_first_go grammars n c first = some r →
      build_first_go grammars m c first = some r := by
  intro n
  induction n with
  | zero => intro m c first r _ h; cases h
  | succ n ih =>
      intro m c first r hnm h
      obtain ⟨m, rfl⟩ : ∃ m', m = m' + 1 := ⟨m - 1, by omega⟩
      have hnm' : n ≤ m := by omega
      match c with
      | FirstCall.grammarCall g =>
          simp only [build_first_go] at h ⊢
          by_cases hmemo : (mapLookup first g).isSome
          · rw [if_pos hmemo] at h ⊢
            exact h
          · rw [if_neg hmemo] at h ⊢
            cases hg : mapLookup grammars g with
            | some variants =>
                rw [hg] at h
                have h' : (match build_first_go grammars n
                    (FirstCall.variantsCall variants []) first with
                  | none => none
                  | some fn => some (mapInsert fn.1 g fn.2, [])) = some r := h
                show (match build_first_go grammars m
                    (FirstCall.variantsCall variants []) first with
                  | none => none
                  | some fn => some (mapInsert fn.1 g fn.2, [])) = some r
                cases hrec : build_first_go grammars n
                    (FirstCall.variantsCall variants []) first with
                | none => rw [hrec] at h'; cases h'
                | some fn =>
                    rw [hrec] at h'
                    rw [ih m _ _ _ hnm' hrec]
                    exact h'
            | none =>
                rw [hg] at h
                exact h
      | FirstCall.variantsCall [] nodes =>
          simp only [build_first_go] at h ⊢
          exact h
      | FirstCall.variantsCall (variant :: rest) nodes =>
          simp only [build_first_go] at h ⊢
          cases hh : variant.head? with
          | none =>
              rw [hh] at h
              exact ih m _ _ _ hnm' h
          | some node =>
              rw [hh] at h
              match node with
              | NodeType.token name => exact ih m _ _ _ hnm' h
              | NodeType.grammar name =>
                  have h' : (match build_first_go grammars n
                      (FirstCall.grammarCall name) first with
                    | none => none
                    | some f1 =>
                        build_first_go grammars n
                          (FirstCall.variantsCall rest
                            (match mapLookup f1.1 name with
                              | some children => children.foldl insSet nodes
                              | none => nodes)) f1.1) = some r := h
                  show (match build_first_go grammars m
                      (FirstCall.grammarCall name) first with
                    | none => none
                    | some f1 =>
                        build_first_go grammars m
                          (FirstCall.variantsCall rest
                            (match mapLookup f1.1 name with
                              | some children => children.foldl insSet nodes
                              | none => nodes)) f1.1) = some r
                  cases hrec : build_first_go grammars n
                      (FirstCall.grammarCall name) first with
                  | none => rw [hrec] at h'; cases h'
                  | some f1 =>
                      rw [hrec] at h'
                      rw [ih m _ _ _ hnm' hrec]
                      exact ih m _ _ _ hnm' h'

/-- A key with a computed production: `mapLookup` finds it. -/
theorem mapLookup_isSome_of_mem {α : Type} {m : List (String × α)} {k : String}
    (hk : k ∈ m.map Prod.fst) : (mapLookup m k).isSome := by
  unfold mapLookup
  obtain ⟨e, he, hek⟩ := List.mem_map.mp hk
  have : (m.find? (fun e => e.1 == k)).isSome := by
    rw [List.find?_isSome]
    exact ⟨e, he, by rw [hek]; exact beq_self_eq_true k⟩
  cases hf : m.find? (fun e => e.1 == k) with
  | none => rw [hf] at this; cases this
  | some e' => simp


/-- A successful `mapLookup` means the key occurs in the map. -/
theorem mapLookup_mem_keys {α : Type} {m : List (String × α)} {k : String}
    {v : α} (h : mapLookup m k = some v) : k ∈ m.map Prod.fst := by
  unfold mapLookup at h
  cases hf : m.find? (fun e => e.1 == k) with
  | none => rw [hf] at h; cases h
  | some e =>
      have hmem := List.mem_of_find?_eq_some hf
      have hek := List.find?_some hf
      simp only [beq_iff_eq] at hek
      exact hek ▸ List.mem_map.mpr ⟨e, hmem, rfl⟩

/-- A name that is no key of the grammar map terminates in one step: its
FIRST set is the empty set. -/
theorem build_first_go_nonkey (grammars : List (String × GrammarVariants))
    (A : String) (hk : A ∉ grammars.map Prod.fst) (first : FirstSet) :
    ∃ r, build_first_go grammars 1 (FirstCall.grammarCall A) first = some r := by
  by_cases hm : (mapLookup first A).isSome
  · exact ⟨(first, []), by simp only [build_first_go]; rw [if_pos hm]⟩
  · have hnone : mapLookup grammars A = none := by
      cases h : mapLookup grammars A with
      | none => rfl
      | some v => exact absurd (mapLookup_mem_keys h) hk
    exact ⟨(mapInsert first A [], []), by
      simp only [build_first_go]; rw [if_neg hm, hnone]⟩

/-- Sufficiency half of C10: when no nonterminal reaches itself through
leading-position nonterminals, `build_first` terminates on every name and
every memo state (some fuel suffices). -/
theorem build_first_go_terminates (grammars : List (String × GrammarVariants))
    (hnc : ∀ A, ¬ Relation.TransGen (leadsTo grammars) A A) :
    ∀ (A : String) (first : FirstSet),
      ∃ fuel r, build_first_go grammars fuel (FirstCall.grammarCall A) first
        = some r := by
  -- the leading-nonterminal relation, restricted to the grammar's keys,
  -- is well-founded: its transitive closure is transitive, irreflexive by
  -- hypothesis, and the keys are finitely many
  have hfin : Finite {x : String // x ∈ grammars.map Prod.fst} :=
    (List.finite_toSet (grammars.map Prod.fst)).to_subtype
  let rel : {x : String // x ∈ grammars.map Prod.fst} →
      {x : String // x ∈ grammars.map Prod.fst} → Prop :=
    fun b a => Relation.TransGen (leadsTo grammars) a.val b.val
  haveI : IsTrans _ rel := ⟨fun _ _ _ hab hbc => Relation.TransGen.trans hbc hab⟩
  haveI : IsIrrefl _ rel := ⟨fun a ha => hnc a.val ha⟩
  have hwf : WellFounded rel := Finite.wellFounded_of_trans_of_irrefl rel
  have main : ∀ (a : {x : String // x ∈ grammars.map Prod.fst}) (first : FirstSet),
      ∃ fuel r, build_first_go grammars fuel (FirstCall.grammarCall a.val) first
        = some r := by
    intro a
    induction a using hwf.induction with
    | _ x IH =>
        intro first
        by_cases hmemo : (mapLookup first x.val).isSome
        · exact ⟨1, (first, []), by simp only [build_first_go]; rw [if_pos hmemo]⟩
        · obtain ⟨variants, hvar⟩ := Option.isSome_iff_exists.mp
            (mapLookup_isSome_of_mem x.property)
          have hloop : ∀ (vs : GrammarVariants), (∀ v ∈ vs, v ∈ variants) →
              ∀ (first' : FirstSet) (nodes : List String),
                ∃ fuel r, build_first_go grammars fuel
                  (FirstCall.variantsCall vs nodes) first' = some r := by
            intro vs
            induction vs with
            | nil =>
                exact fun _ first' nodes =>
                  ⟨1, (first', nodes), by simp only [build_first_go]⟩
            | cons v rest ihv =>
                intro hsub first' nodes
                cases hh : v.head? with
                | none =>
                    obtain ⟨fuel, r, hr⟩ :=
                      ihv (fun w hw => hsub w (List.mem_cons_of_mem _ hw)) first' nodes
                    exact ⟨fuel + 1, r, by
                      simp only [build_first_go]; rw [hh]; exact hr⟩
                | some node =>
                    match node with
                    | NodeType.token name =>
                        obtain ⟨fuel, r, hr⟩ :=
                          ihv (fun w hw => hsub w (List.mem_cons_of_mem _ hw))
                            first' (insSet nodes name)
                        exact ⟨fuel + 1, r, by
                          simp only [build_first_go]; rw [hh]; exact hr⟩
                    | NodeType.grammar name =>
                        have hlead : leadsTo grammars x.val name :=
                          ⟨variants, hvar, v, hsub v (List.mem_cons_self _ _), hh⟩
                        have hname : ∃ fuel r,
                            build_first_go grammars fuel
                              (FirstCall.grammarCall name) first' = some r := by
                          by_cases hk : name ∈ grammars.map Prod.fst
                          · exact IH ⟨name, hk⟩ (Relation.TransGen.single hlead) first'
                          · obtain ⟨r, hr⟩ := build_first_go_nonkey grammars name hk first'
                            exact ⟨1, r, hr⟩
                        obtain ⟨f1, r1, hr1⟩ := hname
                        obtain ⟨f2, r2, hr2⟩ :=
                          ihv (fun w hw => hsub w (List.mem_cons_of_mem _ hw)) r1.1
                            (match mapLookup r1.1 name with
                              | some children => children.foldl insSet nodes
                              | none => nodes)
                        refine ⟨max f1 f2 + 1, r2, ?_⟩
                        simp only [build_first_go]
                        rw [hh]
                        show (match build_first_go grammars (max f1 f2)
                            (FirstCall.grammarCall name) first' with
                          | none => none
                          | some fn =>
                              build_first_go grammars (max f1 f2)
                                (FirstCall.variantsCall rest
                                  (match mapLookup fn.1 name with
                                    | some children => children.foldl insSet nodes
                                    | none => nodes)) fn.1) = some r2
                        rw [build_first_go_mono grammars f1 (max f1 f2) _ _ _
                          (Nat.le_max_left _ _) hr1]
                        exact build_first_go_mono grammars f2 (max f1 f2) _ _ _
                          (Nat.le_max_right _ _) hr2
          obtain ⟨f, r, hr⟩ := hloop variants (fun _ h => h) first []
          refine ⟨f + 1, (mapInsert r.1 x.val r.2, []), ?_⟩
          simp only [build_first_go]
          rw [if_neg hmemo, hvar]
          show (match build_first_go grammars f
              (FirstCall.variantsCall variants []) first with
            | none => none
            | some fn => some (mapInsert fn.1 x.val fn.2, []))
            = some (mapInsert r.1 x.val r.2, [])
          rw [hr]
  intro A first
  by_cases hk : A ∈ grammars.map Prod.fst
  · exact main ⟨A, hk⟩ first
  · obtain ⟨r, hr⟩ := build_first_go_nonkey grammars A hk first
    exact ⟨1, r, hr⟩

/-- Fuel monotonicity of the FIRST loop over the grammar keys. -/
theorem build_first_keys_mono (grammars : List (String × GrammarVariants)) :
    ∀ (ks : List String) (n m : Nat) (first fr : FirstSet), n ≤ m →
      build_first_keys n grammars ks first = some fr →
      build_first_keys m grammars ks first = some fr := by
  intro ks
  induction ks with
  | nil => exact fun n m first fr _ h => h
  | cons k ks ih =>
      intro n m first fr hnm h
      have base : ∀ (fuel : Nat),
          build_first_keys fuel grammars (k :: ks) first =
            match build_first fuel k grammars first with
            | none => none
            | some first' => build_first_keys fuel grammars ks first' :=
        fun _ => rfl
      rw [base] at h
      cases hb : build_first n k grammars first with
      | none => rw [hb] at h; cases h
      | some f' =>
          rw [hb] at h
          obtain ⟨r, hr, hrf⟩ := Option.map_eq_some'.mp hb
          rw [base]
          have : build_first m k grammars first = some f' := by
            unfold build_first
            rw [build_first_go_mono grammars n m _ _ _ hnm hr]
            simp [hrf]
          rw [this]
          exact ih n m f' fr hnm h

/-- Sufficiency half of C10 at the whole-grammar level: under the
no-leading-cycle precondition some fuel completes the FIRST computation
for every grammar key. -/
theorem build_first_all_terminates (grammars : List (String × GrammarVariants))
    (hnc : ∀ A, ¬ Relation.TransGen (leadsTo grammars) A A) :
    ∃ fuel, (build_first_all fuel grammars).isSome := by
  suffices h : ∀ (ks : List String) (first : FirstSet),
      ∃ fuel fr, build_first_keys fuel grammars ks first = some fr by
    obtain ⟨fuel, fr, hfr⟩ := h (grammars.map Prod.fst) []
    exact ⟨fuel, by unfold build_first_all; rw [hfr]; rfl⟩
  intro ks
  induction ks with
  | nil => exact fun first => ⟨1, first, rfl⟩
  | cons k ks ih =>
      intro first
      obtain ⟨f1, r1, hr1⟩ := build_first_go_terminates grammars hnc k first
      obtain ⟨f2, fr, hfr⟩ := ih r1.1
      refine ⟨max f1 f2, fr, ?_⟩
      have hb : build_first (max f1 f2) k grammars first = some r1.1 := by
        unfold build_first
        rw [build_first_go_mono grammars f1 (max f1 f2) _ _ _
          (Nat.le_max_left _ _) hr1]
        rfl
      have base : build_first_keys (max f1 f2) grammars (k :: ks) first =
          match build_first (max f1 f2) k grammars first with
          | none => none
          | some first' => build_first_keys (max f1 f2) grammars ks first' := rfl
      rw [base, hb]
      exact build_first_keys_mono grammars ks f2 (max f1 f2) r1.1 fr
        (Nat.le_max_right _ _) hfr

/-- The directly left-recursive grammar `A -> A`. -/
def leftRecGrammar : List (String × GrammarVariants) :=
  [("A", [[NodeType.grammar "A"]])]

/-- Necessity half of C10: on `A -> A` the FIRST recursion consumes any
amount of fuel without producing a result — the Rust recursion never
terminates (it overflows the stack). -/
theorem build_first_go_left_recursive :
    ∀ (fuel : Nat) (first : FirstSet), mapLookup first "A" = none →
      build_first_go leftRecGrammar fuel (FirstCall.grammarCall "A") first
        = none := by
  intro fuel
  induction fuel using Nat.strong_induction_on with
  | _ fuel IH =>
      intro first h
      match fuel with
      | 0 => rfl
      | fuel + 1 =>
          have base : build_first_go leftRecGrammar (fuel + 1)
              (FirstCall.grammarCall "A") first =
              if (mapLookup first "A").isSome then some (first, [])
              else
                match mapLookup leftRecGrammar "A" with
                | some variants =>
                    match build_first_go leftRecGrammar fuel
                        (FirstCall.variantsCall variants []) first with
                    | none => none
                    | some fn => some (mapInsert fn.1 "A" fn.2, [])
                | none => some (mapInsert first "A" [], []) := rfl
          rw [base, if_neg (by simp [h])]
          have hlook : mapLookup leftRecGrammar "A" =
              some [[NodeType.grammar "A"]] := rfl
          rw [hlook]
          show (match build_first_go leftRecGrammar fuel
              (FirstCall.variantsCall [[NodeType.grammar "A"]] []) first with
            | none => none
            | some fn => some (mapInsert fn.1 "A" fn.2, [])) = none
          have hv : build_first_go leftRecGrammar fuel
              (FirstCall.variantsCall [[NodeType.grammar "A"]] []) first = none := by
            match fuel with
            | 0 => rfl
            | m + 1 =>
                have step : build_first_go leftRecGrammar (m + 1)
                    (FirstCall.variantsCall [[NodeType.grammar "A"]] []) first =
                    match build_first_go leftRecGrammar m
                        (FirstCall.grammarCall "A") first with
                    | none => none
                    | some f1 =>
                        build_first_go leftRecGrammar m
                          (FirstCall.variantsCall []
                            (match mapLookup f1.1 "A" with
                              | some children => children.foldl insSet []
                              | none => [])) f1.1 := rfl
                rw [step, IH m (by omega) first h]
          rw [hv]

/-- The only leading-nonterminal edge of the loaded grammar `S -> a` is
`__ROOT -> S`. -/
theorem gSa_edges : ∀ X Y, leadsTo gSa X Y → X = "__ROOT" ∧ Y = "S" := by
  intro X Y hxy
  obtain ⟨variants, hvar, v, hv, hh⟩ := hxy
  by_cases h1 : X = "__ROOT"
  · subst h1
    have : mapLookup gSa "__ROOT" =
        some [[NodeType.grammar "S", NodeType.token "$"]] := rfl
    rw [this] at hvar
    obtain rfl : variants = [[NodeType.grammar "S", NodeType.token "$"]] :=
      (Option.some.injEq _ _ ▸ hvar).symm
    obtain rfl : v = [NodeType.grammar "S", NodeType.token "$"] :=
      List.mem_singleton.mp hv
    simp only [List.head?, Option.some.injEq, NodeType.grammar.injEq] at hh
    exact ⟨rfl, hh.symm⟩
  · by_cases h2 : X = "S"
    · subst h2
      have : mapLookup gSa "S" = some [[NodeType.token "a"]] := rfl
      rw [this] at hvar
      obtain rfl : variants = [[NodeType.token "a"]] :=
        (Option.some.injEq _ _ ▸ hvar).symm
      obtain rfl : v = [NodeType.token "a"] := List.mem_singleton.mp hv
      simp only [List.head?] at hh
      cases hh
    · have e1 : (("__ROOT" : String) == X) = false :=
        beq_eq_false_iff_ne.mpr (fun h => h1 h.symm)
      have e2 : (("S" : String) == X) = false :=
        beq_eq_false_iff_ne.mpr (fun h => h2 h.symm)
      have : mapLookup gSa X = none := by
        have hg : gSa = [("__ROOT", [[NodeType.grammar "S", NodeType.token "$"]]),
            ("S", [[NodeType.token "a"]])] := rfl
        rw [hg]
        unfold mapLookup
        simp [List.find?, e1, e2]
      rw [this] at hvar
      cases hvar

/-- The loaded grammar `S -> a` has no leading-nonterminal cycle. -/
theorem gSa_no_cycle : ∀ A, ¬ Relation.TransGen (leadsTo gSa) A A := by
  have key : ∀ X Y, Relation.TransGen (leadsTo gSa) X Y →
      X = "__ROOT" ∧ Y = "S" := by
    intro X Y h
    induction h with
    | single h => exact gSa_edges _ _ h
    | tail _hxb hby ih =>
        obtain ⟨hx, hb⟩ := ih
        obtain ⟨hb', _⟩ := gSa_edges _ _ hby
        rw [hb] at hb'
        exact absurd hb' (by decide)
  intro A h
  obtain ⟨h1, h2⟩ := key A A h
  rw [h1] at h2
  exact absurd h2 (by decide)

/-- C10: the memoized FIRST recursion terminates for every grammar whose
leading-position nonterminal relation is acyclic (some fuel completes the
whole computation), and only under that precondition: on the directly
left-recursive grammar `A -> A` the recursion exhausts every amount of
fuel. -/
theorem C10_first_termination :
    (∀ (grammars : List (String × GrammarVariants)),
        (∀ A, ¬ Relation.TransGen (leadsTo grammars) A A) →
        ∃ fuel, (build_first_all fuel grammars).isSome) ∧
      ∀ fuel, build_first fuel "A" leftRecGrammar [] = none := by
  constructor
  · exact fun grammars hnc => build_first_all_terminates grammars hnc
  · intro fuel
    unfold build_first
    rw [build_first_go_left_recursive fuel [] rfl]
    rfl

/-- C10 witness: the termination statement applied to the loaded grammar
`S -> a`, whose leading-nonterminal relation is acyclic. -/
theorem C10_first_termination_witness :
    ∃ fuel, (build_first_all fuel gSa).isSome :=
  C10_first_termination.1 gSa gSa_no_cycle

/-! ### Claim C7: leaves of a successful parse

The work stack holds the unexpanded right frontier of the tree under
construction.  `Open t pend done` says that inside the subtree `t` the
pending (still unexpanded) nodes sit exactly at the addresses `pend`, in
pop order, and that the leaves already written carry the pairs `done`, in
order.  At every moment the in-progress path is a single spine: within an
internal node, some prefix of the children is fully processed, at most one
child is in progress, and the children after it are still the untouched
single nodes created at expansion.  Pending leaves are never named `$` and
pending internal nodes never named `__ROOT` (under the claim's
hypotheses), which rules out a premature EOF match and a re-expansion of
the root production deep in the tree. -/

/-- The `(name, lexeme)` pair of a token. -/
def tokenPair (t : Token) : String × String := (t.name, t.value)

/-- A grammar symbol that is neither the EOF terminal nor the synthetic
root nonterminal. -/
def cleanSym : NodeType → Prop
  | NodeType.token m => m ≠ EOF
  | NodeType.grammar m => m ≠ ROOT

/-- The frontier decomposition of a subtree under construction. -/
inductive Open : AST → List (List Nat) → List (String × String) → Prop
  | pendLeaf (n : String) : n ≠ EOF → Open (AST.token n "") [[]] []
  | pendNode (n : String) : n ≠ ROOT → Open (AST.grammar n []) [[]] []
  | node (n : String) (ds : List AST) (dsDone : List (String × String))
      (c : AST) (cpend : List (List Nat)) (cdone : List (String × String))
      (es : List AST) :
      AST.leavesList ds = dsDone →
      Open c cpend cdone →
      (∀ e ∈ es, Open e [[]] []) →
      Open (AST.grammar n (ds ++ c :: es))
        (cpend.map (fun q => ds.length :: q) ++
          (List.range es.length).map (fun j => [ds.length + 1 + j]))
        (dsDone ++ cdone)

/-- A subtree that is either still open with pending frontier `pend`, or
fully processed (empty frontier) with leaves `done`. -/
def Frontier (t : AST) (pend : List (List Nat))
    (done : List (String × String)) : Prop :=
  match pend with
  | [] => AST.leaves t = done
  | _ :: _ => Open t pend done

theorem leavesList_append (xs ys : List AST) :
    AST.leavesList (xs ++ ys) = AST.leavesList xs ++ AST.leavesList ys := by
  induction xs with
  | nil => rfl
  | cons x xs ih =>
      simp only [List.cons_append, AST.leavesList, List.append_eq, ih,
        List.append_assoc]

/-- An open subtree always has a pending node. -/
theorem Open.pend_ne_nil {t : AST} {pend : List (List Nat)}
    {done : List (String × String)} (h : Open t pend done) : pend ≠ [] := by
  induction h with
  | pendLeaf n hn => exact fun h => by cases h
  | pendNode n hn => exact fun h => by cases h
  | node n ds dsDone c cpend cdone es hds hc hes ihc ihes =>
      intro hcontr
      rcases List.append_eq_nil.mp hcontr with ⟨h1, _⟩
      exact ihc (List.map_eq_nil_iff.mp h1)

/-- Fresh children made from clean symbols are open single pending
nodes. -/
theorem mkChild_open (sym : NodeType) (hs : cleanSym sym) :
    Open (mkChild sym) [[]] [] := by
  match sym with
  | NodeType.token m => exact Open.pendLeaf m hs
  | NodeType.grammar m => exact Open.pendNode m hs

theorem get_append_length {α : Type} (ds : List α) (c : α) (es : List α) :
    (ds ++ c :: es).get? ds.length = some c := by
  rw [List.get?_eq_getElem?, List.getElem?_append_right (Nat.le_refl _)]
  simp

theorem set_append_length {α : Type} (ds : List α) (c x : α) (es : List α) :
    (ds ++ c :: es).set ds.length x = ds ++ x :: es := by
  induction ds with
  | nil => rfl
  | cons d ds ih =>
      simp only [List.cons_append, List.length_cons, List.set, List.append_eq, ih]

theorem getAt_node_at (n : String) (ds : List AST) (c : AST) (es : List AST)
    (q : List Nat) :
    AST.getAt (AST.grammar n (ds ++ c :: es)) (ds.length :: q) =
      AST.getAt c q := by
  simp only [AST.getAt, get_append_length]

theorem setAt_node_at (n : String) (ds : List AST) (c x : AST) (es : List AST)
    (q : List Nat) :
    AST.setAt (AST.grammar n (ds ++ c :: es)) (ds.length :: q) x =
      AST.grammar n (ds ++ (AST.setAt c q x) :: es) := by
  simp only [AST.setAt, get_append_length, set_append_length]

/-- The top of the frontier is a pending leaf (with a non-EOF name) or a
pending childless internal node (not named `__ROOT`). -/
theorem Open.head_shape {t : AST} {pend : List (List Nat)}
    {done : List (String × String)} (h : Open t pend done) :
    ∀ p rest, pend = p :: rest →
      (∃ n, AST.getAt t p = some (AST.token n "") ∧ n ≠ EOF) ∨
      (∃ n, AST.getAt t p = some (AST.grammar n []) ∧ n ≠ ROOT) := by
  induction h with
  | pendLeaf n hn =>
      intro p rest hp
      injection hp with h1 h2
      subst h1
      exact Or.inl ⟨n, rfl, hn⟩
  | pendNode n hn =>
      intro p rest hp
      injection hp with h1 h2
      subst h1
      exact Or.inr ⟨n, rfl, hn⟩
  | node n ds dsDone c cpend cdone es hds hc hes ihc ihes =>
      intro p rest hp
      obtain ⟨q, crest, rfl⟩ := List.exists_cons_of_ne_nil hc.pend_ne_nil
      simp only [List.map_cons, List.cons_append] at hp
      injection hp with h1 h2
      subst h1
      rw [getAt_node_at]
      exact ihc q crest rfl

/-- Filling a pending leaf with a lexeme moves its pair into `done` and
pops it from the frontier. -/
theorem Open.fill {t : AST} {pend : List (List Nat)}
    {done : List (String × String)} (h : Open t pend done) :
    ∀ p rest n v, pend = p :: rest →
      AST.getAt t p = some (AST.token n "") →
      Frontier (AST.setAt t p (AST.token n v)) rest (done ++ [(n, v)]) := by
  induction h with
  | pendLeaf n0 hn =>
      intro p rest n v hp _hget
      injection hp with h1 h2
      subst h1; subst h2
      show AST.leaves (AST.token n v) = [] ++ [(n, v)]
      simp [AST.leaves]
  | pendNode n0 hn =>
      intro p rest n v hp hget
      injection hp with h1 h2
      subst h1
      simp only [AST.getAt] at hget
      cases hget
  | node n1 ds dsDone c cpend cdone es hds hc hes ihc ihes =>
      intro p rest n v hp hget
      obtain ⟨q, crest, rfl⟩ := List.exists_cons_of_ne_nil hc.pend_ne_nil
      simp only [List.map_cons, List.cons_append] at hp
      injection hp with h1 h2
      subst h1; subst h2
      rw [getAt_node_at] at hget
      have hfr := ihc q crest n v rfl hget
      rw [setAt_node_at]
      cases crest with
      | cons q' crest' =>
          have hopen := Open.node n1 ds dsDone (AST.setAt c q (AST.token n v))
            (q' :: crest') (cdone ++ [(n, v)]) es hds hfr hes
          have hdone : dsDone ++ (cdone ++ [(n, v)]) =
              (dsDone ++ cdone) ++ [(n, v)] := (List.append_assoc _ _ _).symm
          rw [hdone] at hopen
          exact hopen
      | nil =>
          have hc' : AST.leaves (AST.setAt c q (AST.token n v)) =
              cdone ++ [(n, v)] := hfr
          cases es with
          | nil =>
              show AST.leaves _ = _
              show AST.leavesList (ds ++ [AST.setAt c q (AST.token n v)]) = _
              rw [leavesList_append, hds]
              simp only [AST.leavesList, List.append_nil]
              rw [hc', List.append_assoc]
          | cons e es' =>
              have hopen := Open.node n1 (ds ++ [AST.setAt c q (AST.token n v)])
                (dsDone ++ (cdone ++ [(n, v)])) e [[]] [] es'
                (by rw [leavesList_append, hds]
                    simp only [AST.leavesList, List.append_nil]
                    rw [hc'])
                (hes e (List.mem_cons_self _ _))
                (fun e' he' => hes e' (List.mem_cons_of_mem _ he'))
              have h0 : (List.range (es'.length + 1)).map
                  (fun j => [ds.length + 1 + j]) =
                  [ds.length + 1] ::
                    (List.range es'.length).map
                      (fun j => [ds.length + 1 + 1 + j]) := by
                rw [List.range_succ_eq_map, List.map_cons, List.map_map]
                congr 1
                refine List.map_congr_left (fun a _ => ?_)
                simp only [Function.comp_apply]
                congr 1
                omega
              simp only [List.map_nil, List.nil_append, List.length_cons]
              rw [h0]
              have hch : (ds ++ [AST.setAt c q (AST.token n v)]) ++ e :: es' =
                  ds ++ AST.setAt c q (AST.token n v) :: e :: es' := by
                rw [List.append_assoc]; rfl
              have hlen : (ds ++ [AST.setAt c q (AST.token n v)]).length =
                  ds.length + 1 := by simp
              rw [hch, hlen] at hopen
              simp only [List.map_cons, List.map_nil, List.singleton_append,
                List.append_nil] at hopen
              rw [← List.append_assoc] at hopen
              exact hopen

/-- Popping a pending internal node without expanding it (the epsilon
alternative) closes it: the node stays childless in the tree and the
frontier merely shrinks. -/
theorem Open.close {t : AST} {pend : List (List Nat)}
    {done : List (String × String)} (h : Open t pend done) :
    ∀ p rest n, pend = p :: rest →
      AST.getAt t p = some (AST.grammar n []) →
      Frontier t rest done := by
  induction h with
  | pendLeaf n0 hn =>
      intro p rest n hp hget
      injection hp with h1 h2
      subst h1
      simp only [AST.getAt] at hget
      cases hget
  | pendNode n0 hn =>
      intro p rest n hp hget
      injection hp with h1 h2
      subst h1; subst h2
      show AST.leaves (AST.grammar n0 []) = []
      rfl
  | node n1 ds dsDone c cpend cdone es hds hc hes ihc ihes =>
      intro p rest n hp hget
      obtain ⟨q, crest, rfl⟩ := List.exists_cons_of_ne_nil hc.pend_ne_nil
      simp only [List.map_cons, List.cons_append] at hp
      injection hp with h1 h2
      subst h1; subst h2
      rw [getAt_node_at] at hget
      have hfr := ihc q crest n rfl hget
      cases crest with
      | cons q' crest' =>
          exact Open.node n1 ds dsDone c (q' :: crest') cdone es hds hfr hes
      | nil =>
          have hc' : AST.leaves c = cdone := hfr
          cases es with
          | nil =>
              show AST.leaves _ = _
              show AST.leavesList (ds ++ [c]) = _
              rw [leavesList_append, hds]
              simp only [AST.leavesList, List.append_nil]
              rw [hc']
          | cons e es' =>
              have hopen := Open.node n1 (ds ++ [c]) (dsDone ++ cdone) e [[]] [] es'
                (by rw [leavesList_append, hds]
                    simp only [AST.leavesList, List.append_nil]
                    rw [hc'])
                (hes e (List.mem_cons_self _ _))
                (fun e' he' => hes e' (List.mem_cons_of_mem _ he'))
              have h0 : (List.range (es'.length + 1)).map
                  (fun j => [ds.length + 1 + j]) =
                  [ds.length + 1] ::
                    (List.range es'.length).map
                      (fun j => [ds.length + 1 + 1 + j]) := by
                rw [List.range_succ_eq_map, List.map_cons, List.map_map]
                congr 1
                refine List.map_congr_left (fun a _ => ?_)
                simp only [Function.comp_apply]
                congr 1
                omega
              simp only [List.map_nil, List.nil_append, List.length_cons]
              rw [h0]
              have hch : (ds ++ [c]) ++ e :: es' = ds ++ c :: e :: es' := by
                rw [List.append_assoc]; rfl
              have hlen : (ds ++ [c]).length = ds.length + 1 := by simp
              rw [hch, hlen] at hopen
              simp only [List.map_cons, List.map_nil, List.singleton_append,
                List.append_nil] at hopen
              exact hopen

/-- Expanding a pending internal node with the symbols of a non-epsilon
alternative: the fresh children (one per symbol, leftmost on top) replace
the node on the frontier. -/
theorem Open.expand {t : AST} {pend : List (List Nat)}
    {done : List (String × String)} (h : Open t pend done) :
    ∀ p rest n (syms : List NodeType), pend = p :: rest →
      AST.getAt t p = some (AST.grammar n []) →
      syms ≠ [] →
      (∀ sym ∈ syms, cleanSym sym) →
      Open (AST.setAt t p (AST.grammar n (syms.map mkChild)))
        ((List.range syms.length).map (fun j => p ++ [j]) ++ rest) done := by
  induction h with
  | pendLeaf n0 hn =>
      intro p rest n syms hp hget _hsyms _hclean
      injection hp with h1 h2
      subst h1
      simp only [AST.getAt] at hget
      cases hget
  | pendNode n0 hn =>
      intro p rest n syms hp hget hsyms hclean
      injection hp with h1 h2
      subst h1; subst h2
      simp only [AST.getAt, Option.some.injEq, AST.grammar.injEq] at hget
      obtain ⟨rfl, -⟩ := hget
      obtain ⟨e, es', rfl⟩ := List.exists_cons_of_ne_nil hsyms
      have hopen := Open.node n0 [] [] (mkChild e) [[]] [] (es'.map mkChild) rfl
        (mkChild_open e (hclean e (List.mem_cons_self _ _)))
        (fun e' he' => by
          obtain ⟨s, hs, rfl⟩ := List.mem_map.mp he'
          exact mkChild_open s (hclean s (List.mem_cons_of_mem _ hs)))
      simp only [List.nil_append, List.length_nil, List.map_cons, List.map_nil,
        List.singleton_append, List.append_nil, List.length_map] at hopen
      have h0 : (List.range (es'.length + 1)).map (fun j => ([j] : List Nat)) =
          [0] :: (List.range es'.length).map (fun j => [0 + 1 + j]) := by
        rw [List.range_succ_eq_map, List.map_cons, List.map_map]
        congr 1
        refine List.map_congr_left (fun a _ => ?_)
        simp only [Function.comp_apply]
        congr 1
        omega
      simp only [List.length_cons, List.append_nil, List.nil_append]
      rw [h0]
      exact hopen
  | node n1 ds dsDone c cpend cdone es hds hc hes ihc ihes =>
      intro p rest n syms hp hget hsyms hclean
      obtain ⟨q, crest, rfl⟩ := List.exists_cons_of_ne_nil hc.pend_ne_nil
      simp only [List.map_cons, List.cons_append] at hp
      injection hp with h1 h2
      subst h1; subst h2
      rw [getAt_node_at] at hget
      have hih := ihc q crest n syms rfl hget hsyms hclean
      rw [setAt_node_at]
      have hopen := Open.node n1 ds dsDone
        (AST.setAt c q (AST.grammar n (syms.map mkChild)))
        ((List.range syms.length).map (fun j => q ++ [j]) ++ crest) cdone es
        hds hih hes
      simp only [List.map_append, List.map_map, List.append_assoc] at hopen ⊢
      exact hopen

/-- An open subtree with any frontier is a `Frontier`. -/
theorem Open.toFrontier {t : AST} {pend : List (List Nat)}
    {done : List (String × String)} (h : Open t pend done) :
    Frontier t pend done := by
  cases hp : pend with
  | nil => exact absurd hp h.pend_ne_nil
  | cons a l => rw [hp] at h; exact h

/-- A successful `mapLookup` exposes the found entry. -/
theorem mapLookup_entry {κ α : Type} [BEq κ] [LawfulBEq κ] {m : List (κ × α)}
    {k : κ} {v : α} (h : mapLookup m k = some v) :
    ∃ e ∈ m, e.1 = k ∧ e.2 = v := by
  unfold mapLookup at h
  cases hf : m.find? (fun e => e.1 == k) with
  | none => rw [hf] at h; cases h
  | some e =>
      rw [hf] at h
      simp only [Option.map_some', Option.some.injEq] at h
      have hk := List.find?_some hf
      simp only [beq_iff_eq] at hk
      exact ⟨e, List.mem_of_find?_eq_some hf, hk, h⟩

/-- Every entry of the parse table maps a key `(g, t)` to one of the
alternatives of `g`'s production in the grammar map. -/
def tableOk (grammars : List (String × GrammarVariants))
    (table : ParsingTable) : Prop :=
  ∀ entry ∈ table, ∃ e ∈ grammars, e.1 = entry.1.1 ∧ entry.2 ∈ e.2

theorem insert_row_ok (grammars : List (String × GrammarVariants))
    (g' : String) (variant : GrammarVariant)
    (hsrc : ∃ e ∈ grammars, e.1 = g' ∧ variant ∈ e.2) :
    ∀ (tokens : List String) (table : ParsingTable), tableOk grammars table →
      tableOk grammars (insert_parsing_table_row table g' tokens variant) := by
  intro tokens
  unfold insert_parsing_table_row
  induction tokens with
  | nil => exact fun table hP => hP
  | cons tk tks ih =>
      intro table hP
      simp only [List.foldl_cons]
      apply ih
      by_cases hne : (tk != EPSILON) = true
      · rw [if_pos hne]
        intro entry he
        rcases mapInsert_mem he with h | h
        · obtain ⟨e, he', h1, h2⟩ := hsrc
          exact ⟨e, he', by rw [h, h1], by rw [h]; exact h2⟩
        · exact hP entry h
      · rw [if_neg hne]
        exact hP

/-- `build_parsing_table` only stores alternatives of the keyed
nonterminal's production. -/
theorem build_parsing_table_ok (grammars : List (String × GrammarVariants))
    (first : FirstSet) (follow : FollowSet) :
    tableOk grammars (build_parsing_table grammars first follow) := by
  unfold build_parsing_table
  suffices h : ∀ (gs : List (String × GrammarVariants)),
      (∀ x ∈ gs, x ∈ grammars) →
      ∀ table, tableOk grammars table →
      tableOk grammars (gs.foldl
        (fun table gv =>
          gv.2.foldl
            (fun table variant =>
              if is_epsilon variant then
                match mapLookup follow gv.1 with
                | some tokens => insert_parsing_table_row table gv.1 tokens variant
                | none => table
              else
                match mapLookup first gv.1 with
                | some tokens =>
                    match variant.head? with
                    | some (NodeType.token name) =>
                        if tokens.contains name then
                          insert_parsing_table_row table gv.1 [name] variant
                        else table
                    | _ => insert_parsing_table_row table gv.1 tokens variant
                | none => table)
            table)
        table) by
    exact h grammars (fun x hx => hx) [] (by intro e he; cases he)
  intro gs
  induction gs with
  | nil => exact fun _ table hP => hP
  | cons gv gs ih =>
      intro hsub table hP
      simp only [List.foldl_cons]
      apply ih (fun x hx => hsub x (List.mem_cons_of_mem _ hx))
      have hgv : gv ∈ grammars := hsub gv (List.mem_cons_self _ _)
      have inner : ∀ (vs : GrammarVariants), (∀ v ∈ vs, v ∈ gv.2) →
          ∀ table, tableOk grammars table →
          tableOk grammars (vs.foldl
            (fun table variant =>
              if is_epsilon variant then
                match mapLookup follow gv.1 with
                | some tokens => insert_parsing_table_row table gv.1 tokens variant
                | none => table
              else
                match mapLookup first gv.1 with
                | some tokens =>
                    match variant.head? with
                    | some (NodeType.token name) =>
                        if tokens.contains name then
                          insert_parsing_table_row table gv.1 [name] variant
                        else table
                    | _ => insert_parsing_table_row table gv.1 tokens variant
                | none => table)
            table) := by
        intro vs
        induction vs with
        | nil => exact fun _ table hP => hP
        | cons v vs ihv =>
            intro hvs table hP
            simp only [List.foldl_cons]
            apply ihv (fun w hw => hvs w (List.mem_cons_of_mem _ hw))
            have hsrc : ∃ e ∈ grammars, e.1 = gv.1 ∧ v ∈ e.2 :=
              ⟨gv, hgv, rfl, hvs v (List.mem_cons_self _ _)⟩
            by_cases heps : is_epsilon v = true
            · rw [if_pos heps]
              cases hfl : mapLookup follow gv.1 with
              | some tokens => exact insert_row_ok grammars gv.1 v hsrc tokens table hP
              | none => exact hP
            · rw [if_neg heps]
              cases hfi : mapLookup first gv.1 with
              | some tokens =>
                  cases hhd : v.head? with
                  | some node =>
                      match node with
                      | NodeType.token name =>
                          show tableOk grammars
                            (if tokens.contains name = true then
                              insert_parsing_table_row table gv.1 [name] v
                            else table)
                          by_cases hc : tokens.contains name = true
                          · rw [if_pos hc]
                            exact insert_row_ok grammars gv.1 v hsrc [name] table hP
                          · rw [if_neg hc]
                            exact hP
                      | NodeType.grammar name =>
                          exact insert_row_ok grammars gv.1 v hsrc tokens table hP
                  | none => exact insert_row_ok grammars gv.1 v hsrc tokens table hP
              | none => exact hP
      exact inner gv.2 (fun w hw => hw) table hP

/-- Every token emitted by the tokenizer loop is named after one of the
patterns. -/
theorem tokenize_go_names (ps : List Pattern) :
    ∀ (atoms : List Body) (lookup : Option Body) (u : String) (acc ts : List Token),
      (∀ t ∈ acc, ∃ p ∈ ps, t.name = p.name) →
      tokenize_go ps atoms lookup u acc = .ok ts →
      ∀ t ∈ ts, ∃ p ∈ ps, t.name = p.name := by
  intro atoms
  induction atoms with
  | nil =>
      intro lookup u acc ts hacc h t ht
      simp only [tokenize_go] at h
      by_cases hu : u.length > 0
      · rw [if_pos hu] at h
        exact absurd h (by simp)
      · rw [if_neg hu] at h
        cases h
        exact hacc t ht
  | cons sub rest ih =>
      intro lookup u acc ts hacc h t ht
      cases hfind : ps.find? (fun q => q.value (currentBody lookup sub).value) with
      | some p =>
          rw [tokenize_go_cons_found _ _ _ _ _ _ _ hfind] at h
          refine ih none "" _ ts ?_ h t ht
          intro t' ht'
          rcases List.mem_append.mp ht' with h' | h'
          · exact hacc t' h'
          · rcases List.mem_singleton.mp h' with rfl
            exact ⟨p, List.mem_of_find?_eq_some hfind, rfl⟩
      | none =>
          rw [tokenize_go_cons_none _ _ _ _ _ _ hfind] at h
          exact ih _ _ _ ts hacc h t ht

/-- If no pattern of a tokenizer is named `$`, no token it produces is. -/
theorem tokenizer_no_eof_names (t : Tokenizer) (s : String) (ts : List Token)
    (hp : ∀ q ∈ t.patterns, q.name ≠ EOF)
    (h : t.parse s = .ok ts) : ∀ tok ∈ ts, tok.name ≠ EOF := by
  intro tok htok
  obtain ⟨p, hpmem, hname⟩ := tokenize_go_names t.patterns (split_keep s.data)
    none "" [] ts (by intro x hx; cases hx) h tok htok
  rw [hname]
  exact hp p hpmem

/-- Unfolding of the parse loop when the popped entry is a tree address. -/
theorem parse_loop_cons_addr (table : ParsingTable) (tokens : List Token)
    (fuel : Nat) (tree : AST) (a : List Nat) (srest : List StackEntry)
    (current : Token) (cursor : Nat) :
    parse_loop table tokens (fuel + 1) tree (StackEntry.addr a :: srest)
      current cursor =
      match AST.getAt tree a with
      | none => some ParseOutcome.aborted
      | some (AST.grammar name children) =>
          (match mapLookup table (name, current.name) with
          | none => some (ParseOutcome.err (unexpected_token current))
          | some variant =>
              if is_epsilon variant then
                parse_loop table tokens fuel tree srest current cursor
              else
                parse_loop table tokens fuel
                  (AST.setAt tree a
                    (AST.grammar name (variant.map mkChild ++ children)))
                  ((List.range variant.length).map
                    (fun j => StackEntry.addr (a ++ [j])) ++ srest)
                  current cursor)
      | some (AST.token name _value) =>
          if name == current.name then
            if name == EOF then finishResult tree
            else
              match tokens.get? (cursor + 1) with
              | some next =>
                  parse_loop table tokens fuel
                    (AST.setAt tree a (AST.token name current.value))
                    srest next (cursor + 1)
              | none => some (ParseOutcome.err "Unexpected end of stream.")
          else some (ParseOutcome.err (unexpected_token current)) := rfl

/-- The key invariant argument for C7.  The tree is the expanded root
`__ROOT [c0, $-leaf]`; the stack consists of the frontier addresses of
`c0` (shifted below child 0), then the root's pending `$` leaf, then the
bottom EOF node; `done` is exactly the pairs of the consumed tokens.  If
the loop ends with a tree, that tree is `c0` at the moment the `$` leaf
met the synthetic EOF token, all user tokens were consumed, and the
leaves of the result are exactly their pairs. -/
theorem parse_loop_leaves (table : ParsingTable) (userToks : List Token)
    (hD2 : ∀ g t v, g ≠ ROOT → mapLookup table (g, t) = some v →
      v ≠ [] ∧ ∀ sym ∈ v, cleanSym sym)
    (hnames : ∀ t ∈ userToks, t.name ≠ EOF) :
    ∀ (fuel : Nat) (c0 : AST) (pend0 : List (List Nat))
      (done : List (String × String)) (current : Token) (cursor : Nat)
      (result : AST),
      Frontier c0 pend0 done →
      done = (userToks.take cursor).map tokenPair →
      cursor ≤ userToks.length →
      (userToks ++ [(⟨EOF, EOF, 0, 0⟩ : Token)]).get? cursor = some current →
      parse_loop table (userToks ++ [(⟨EOF, EOF, 0, 0⟩ : Token)]) fuel
        (AST.grammar ROOT [c0, AST.token EOF ""])
        (pend0.map (fun q => StackEntry.addr (0 :: q)) ++
          [StackEntry.addr [1], StackEntry.eofNode])
        current cursor = some (ParseOutcome.ok result) →
      AST.leaves result = userToks.map tokenPair := by
  intro fuel
  induction fuel with
  | zero =>
      intro c0 pend0 done current cursor result _ _ _ _ hrun
      exact Option.noConfusion hrun
  | succ fuel ih =>
      intro c0 pend0 done current cursor result hfront hdone hcur hget hrun
      cases pend0 with
      | nil =>
          simp only [List.map_nil, List.nil_append] at hrun
          rw [parse_loop_cons_addr] at hrun
          have hrun' :
              (if (EOF == current.name) = true then
                if (EOF == EOF) = true then
                  some (finishResult (AST.grammar ROOT [c0, AST.token EOF ""]))
                else
                  match (userToks ++ [(⟨EOF, EOF, 0, 0⟩ : Token)]).get? (cursor + 1) with
                  | some next =>
                      parse_loop table (userToks ++ [(⟨EOF, EOF, 0, 0⟩ : Token)]) fuel
                        (AST.setAt (AST.grammar ROOT [c0, AST.token EOF ""]) [1]
                          (AST.token EOF current.value))
                        [StackEntry.eofNode] next (cursor + 1)
                  | none => some (ParseOutcome.err "Unexpected end of stream.")
              else some (ParseOutcome.err (unexpected_token current))) =
              some (ParseOutcome.ok result) := hrun
          by_cases hcn : (EOF == current.name) = true
          · rw [if_pos hcn, if_pos (show (EOF == EOF) = true from rfl)] at hrun'
            have hfin : finishResult (AST.grammar ROOT [c0, AST.token EOF ""]) =
                ParseOutcome.ok c0 := rfl
            rw [hfin] at hrun'
            injection hrun' with h1
            injection h1 with h2
            subst h2
            have hleaf : AST.leaves c0 = done := hfront
            have hcl : cursor = userToks.length := by
              by_contra hne
              have hlt : cursor < userToks.length := lt_of_le_of_ne hcur hne
              have hcu := hget
              rw [List.get?_append hlt] at hcu
              have hmem : current ∈ userToks := List.get?_mem hcu
              exact hnames current hmem (beq_iff_eq.mp hcn).symm
            rw [hleaf, hdone, hcl, List.take_length]
          · rw [if_neg hcn] at hrun'
            injection hrun' with h1
            exact ParseOutcome.noConfusion h1
      | cons p prest =>
          simp only [List.map_cons, List.cons_append] at hrun
          rw [parse_loop_cons_addr] at hrun
          have hopen : Open c0 (p :: prest) done := hfront
          rw [show AST.getAt (AST.grammar ROOT [c0, AST.token EOF ""]) (0 :: p) =
            AST.getAt c0 p from rfl] at hrun
          rcases hopen.head_shape p prest rfl with ⟨n, hn, hne⟩ | ⟨n, hn, hne⟩
          · -- pending leaf: match or fail
            rw [hn] at hrun
            have hrun' :
                (if (n == current.name) = true then
                  if (n == EOF) = true then
                    some (finishResult (AST.grammar ROOT [c0, AST.token EOF ""]))
                  else
                    match (userToks ++ [(⟨EOF, EOF, 0, 0⟩ : Token)]).get? (cursor + 1) with
                    | some next =>
                        parse_loop table (userToks ++ [(⟨EOF, EOF, 0, 0⟩ : Token)]) fuel
                          (AST.setAt (AST.grammar ROOT [c0, AST.token EOF ""])
                            (0 :: p) (AST.token n current.value))
                          (prest.map (fun q => StackEntry.addr (0 :: q)) ++
                            [StackEntry.addr [1], StackEntry.eofNode])
                          next (cursor + 1)
                    | none => some (ParseOutcome.err "Unexpected end of stream.")
                else some (ParseOutcome.err (unexpected_token current))) =
                some (ParseOutcome.ok result) := hrun
            by_cases hcn : (n == current.name) = true
            · rw [if_pos hcn, if_neg (by simp [hne])] at hrun'
              have hlt : cursor < userToks.length := by
                by_contra h'
                have hclen : cursor = userToks.length :=
                  Nat.le_antisymm hcur (Nat.not_lt.mp h')
                have heof : (userToks ++ [(⟨EOF, EOF, 0, 0⟩ : Token)]).get? cursor =
                    some ⟨EOF, EOF, 0, 0⟩ := by
                  rw [hclen, List.get?_append_right (Nat.le_refl _)]
                  simp
                rw [hget] at heof
                injection heof with h1
                apply hne
                rw [beq_iff_eq.mp hcn, h1]
              have hcu := hget
              rw [List.get?_append hlt] at hcu
              cases hx : (userToks ++ [(⟨EOF, EOF, 0, 0⟩ : Token)]).get? (cursor + 1) with
              | none =>
                  rw [hx] at hrun'
                  injection hrun' with h1
                  exact ParseOutcome.noConfusion h1
              | some next =>
                  rw [hx] at hrun'
                  rw [show AST.setAt (AST.grammar ROOT [c0, AST.token EOF ""])
                      (0 :: p) (AST.token n current.value) =
                      AST.grammar ROOT
                        [AST.setAt c0 p (AST.token n current.value),
                          AST.token EOF ""] from rfl] at hrun'
                  refine ih (AST.setAt c0 p (AST.token n current.value)) prest
                    (done ++ [(n, current.value)]) next (cursor + 1) result
                    (hopen.fill p prest n current.value rfl hn) ?_
                    (by omega) hx hrun'
                  rw [List.get?_eq_getElem?] at hcu
                  rw [List.take_succ, hcu]
                  simp only [Option.toList_some, List.map_append, List.map_cons,
                    List.map_nil]
                  rw [hdone]
                  have : tokenPair current = (n, current.value) := by
                    unfold tokenPair
                    rw [beq_iff_eq.mp hcn]
                  rw [this]
            · rw [if_neg hcn] at hrun'
              injection hrun' with h1
              exact ParseOutcome.noConfusion h1
          · -- pending internal node: epsilon or expansion
            rw [hn] at hrun
            have hrun' :
                (match mapLookup table (n, current.name) with
                | none => some (ParseOutcome.err (unexpected_token current))
                | some variant =>
                    if is_epsilon variant then
                      parse_loop table (userToks ++ [(⟨EOF, EOF, 0, 0⟩ : Token)]) fuel
                        (AST.grammar ROOT [c0, AST.token EOF ""])
                        (prest.map (fun q => StackEntry.addr (0 :: q)) ++
                          [StackEntry.addr [1], StackEntry.eofNode])
                        current cursor
                    else
                      parse_loop table (userToks ++ [(⟨EOF, EOF, 0, 0⟩ : Token)]) fuel
                        (AST.setAt (AST.grammar ROOT [c0, AST.token EOF ""])
                          (0 :: p) (AST.grammar n (variant.map mkChild ++ [])))
                        ((List.range variant.length).map
                          (fun j => StackEntry.addr ((0 :: p) ++ [j])) ++
                          (prest.map (fun q => StackEntry.addr (0 :: q)) ++
                            [StackEntry.addr [1], StackEntry.eofNode]))
                        current cursor) =
                some (ParseOutcome.ok result) := hrun
            cases htab : mapLookup table (n, current.name) with
            | none =>
                rw [htab] at hrun'
                injection hrun' with h1
                exact ParseOutcome.noConfusion h1
            | some variant =>
                rw [htab] at hrun'
                have hrun2 :
                    (if is_epsilon variant = true then
                      parse_loop table (userToks ++ [(⟨EOF, EOF, 0, 0⟩ : Token)]) fuel
                        (AST.grammar ROOT [c0, AST.token EOF ""])
                        (prest.map (fun q => StackEntry.addr (0 :: q)) ++
                          [StackEntry.addr [1], StackEntry.eofNode])
                        current cursor
                    else
                      parse_loop table (userToks ++ [(⟨EOF, EOF, 0, 0⟩ : Token)]) fuel
                        (AST.setAt (AST.grammar ROOT [c0, AST.token EOF ""])
                          (0 :: p) (AST.grammar n (variant.map mkChild ++ [])))
                        ((List.range variant.length).map
                          (fun j => StackEntry.addr ((0 :: p) ++ [j])) ++
                          (prest.map (fun q => StackEntry.addr (0 :: q)) ++
                            [StackEntry.addr [1], StackEntry.eofNode]))
                        current cursor) =
                    some (ParseOutcome.ok result) := hrun'
                obtain ⟨hvne, hvclean⟩ := hD2 n current.name variant hne htab
                by_cases heps : is_epsilon variant = true
                · rw [if_pos heps] at hrun2
                  exact ih c0 prest done current cursor result
                    (hopen.close p prest n rfl hn) hdone hcur hget hrun2
                · rw [if_neg heps] at hrun2
                  have hexp := hopen.expand p prest n variant rfl hn hvne hvclean
                  rw [show AST.setAt (AST.grammar ROOT [c0, AST.token EOF ""])
                      (0 :: p) (AST.grammar n (variant.map mkChild ++ [])) =
                      AST.grammar ROOT
                        [AST.setAt c0 p (AST.grammar n (variant.map mkChild)),
                          AST.token EOF ""] from by
                    rw [List.append_nil]
                    rfl] at hrun2
                  have hstack : (List.range variant.length).map
                      (fun j => StackEntry.addr ((0 :: p) ++ [j])) ++
                      (prest.map (fun q => StackEntry.addr (0 :: q)) ++
                        [StackEntry.addr [1], StackEntry.eofNode]) =
                      ((List.range variant.length).map (fun j => p ++ [j]) ++
                        prest).map (fun q => StackEntry.addr (0 :: q)) ++
                        [StackEntry.addr [1], StackEntry.eofNode] := by
                    simp only [List.map_append, List.map_map, List.append_assoc]
                    rfl
                  rw [hstack] at hrun2
                  exact ih (AST.setAt c0 p (AST.grammar n (variant.map mkChild)))
                    ((List.range variant.length).map (fun j => p ++ [j]) ++ prest)
                    done current cursor result hexp.toFrontier hdone hcur hget hrun2

/-- The loaded grammar of the witness scenario: terminals `a`, `b` and the
single production `S -> a`. -/
def pWgrammars : List (String × GrammarVariants) :=
  load_grammars lexAB.patterns ["S -> a"]

/-- FIRST sets of the witness grammar (fuel 20 is ample). -/
def pWfirst : FirstSet := (build_first_all 20 pWgrammars).getD []

/-- FOLLOW sets of the witness grammar. -/
def pWfollow : FollowSet := build_follow_all pWgrammars pWfirst

/-- The witness parser: grammar `S -> a` over the `a`/`b` lexer, with its
parsing table built from its own FIRST/FOLLOW sets. -/
def pW : Parser :=
  ⟨pWgrammars, pWfirst, pWfollow,
    build_parsing_table pWgrammars pWfirst pWfollow, lexAB⟩

/-- C7: the spec claims the in-order leaves of a returned tree are exactly
the (name, lexeme) pairs of the input tokens with no `$` leaf.  This holds
in the amended form: it requires the grammar store to be well-formed (a
`__ROOT -> S $` head entry and tail productions that never mention `__ROOT`
or `$` and have no empty alternative) — the claim's universal wording over
every loaded grammar is refuted by `C7_counterexample`, where a malformed
first line removes the `__ROOT` wrapper and the returned tree is the bare
first leaf.  Under the well-formedness hypotheses, every successful
`Parser::parse` run returns a tree whose leaves are exactly the token
pairs, none of them named `$`. -/
theorem C7_leaves_equal_tokens
    (p : Parser) (S0 : String) (gtail : List (String × GrammarVariants))
    (content : String) (userToks : List Token) (fuel : Nat) (result : AST)
    (hg : p.grammars =
      (ROOT, [[NodeType.grammar S0, NodeType.token EOF]]) :: gtail)
    (hS0 : S0 ≠ ROOT)
    (htail : ∀ e ∈ gtail, e.1 ≠ ROOT ∧
      ∀ v ∈ e.2, v ≠ [] ∧ ∀ sym ∈ v, cleanSym sym)
    (htable : p.table = build_parsing_table p.grammars p.first p.follow)
    (hpat : ∀ q ∈ p.tokenizer.patterns, q.name ≠ EOF)
    (htoks : p.tokenizer.parse content = Except.ok userToks)
    (hres : p.parse content fuel = some (ParseOutcome.ok result)) :
    AST.leaves result = userToks.map tokenPair ∧
      ∀ pr ∈ AST.leaves result, pr.1 ≠ EOF := by
  have hnames : ∀ t ∈ userToks, t.name ≠ EOF :=
    tokenizer_no_eof_names p.tokenizer content userToks hpat htoks
  have hD2 : ∀ g t v, g ≠ ROOT → mapLookup p.table (g, t) = some v →
      v ≠ [] ∧ ∀ sym ∈ v, cleanSym sym := by
    intro g t v hgne hlook
    have hok : tableOk p.grammars p.table := by
      rw [htable]
      exact build_parsing_table_ok p.grammars p.first p.follow
    obtain ⟨e, hemem, he1, he2⟩ := mapLookup_entry hlook
    obtain ⟨ge, hgemem, hge1, hgev⟩ := hok e hemem
    have hg1 : e.1.1 = g := by rw [he1]
    rw [hg] at hgemem
    rcases List.mem_cons.mp hgemem with heq | hetail
    · exfalso
      apply hgne
      rw [← hg1, ← hge1, heq]
    · exact (htail ge hetail).2 v (he2 ▸ hgev)
  have h0 : (match p.tokenizer.parse content with
      | Except.error e => some (ParseOutcome.err e)
      | Except.ok ts =>
          match (p.grammars.map Prod.fst).head? with
          | none => some (ParseOutcome.err "Parser doesn't have any grammars.")
          | some root_name =>
              match (ts ++ [(⟨EOF, EOF, 0, 0⟩ : Token)]).head? with
              | none => some (ParseOutcome.err "Unexpected end of stream.")
              | some tok0 =>
                  parse_loop p.table (ts ++ [(⟨EOF, EOF, 0, 0⟩ : Token)]) fuel
                    (AST.grammar root_name [])
                    [StackEntry.addr [], StackEntry.eofNode] tok0 0) =
      some (ParseOutcome.ok result) := hres
  rw [htoks] at h0
  have h1 : (match (p.grammars.map Prod.fst).head? with
      | none => some (ParseOutcome.err "Parser doesn't have any grammars.")
      | some root_name =>
          match (userToks ++ [(⟨EOF, EOF, 0, 0⟩ : Token)]).head? with
          | none => some (ParseOutcome.err "Unexpected end of stream.")
          | some tok0 =>
              parse_loop p.table (userToks ++ [(⟨EOF, EOF, 0, 0⟩ : Token)]) fuel
                (AST.grammar root_name [])
                [StackEntry.addr [], StackEntry.eofNode] tok0 0) =
      some (ParseOutcome.ok result) := h0
  rw [hg] at h1
  have h2 : (match (userToks ++ [(⟨EOF, EOF, 0, 0⟩ : Token)]).head? with
      | none => some (ParseOutcome.err "Unexpected end of stream.")
      | some tok0 =>
          parse_loop p.table (userToks ++ [(⟨EOF, EOF, 0, 0⟩ : Token)]) fuel
            (AST.grammar ROOT [])
            [StackEntry.addr [], StackEntry.eofNode] tok0 0) =
      some (ParseOutcome.ok result) := h1
  cases hh : (userToks ++ [(⟨EOF, EOF, 0, 0⟩ : Token)]).head? with
  | none =>
      cases userToks with
      | nil => exact Option.noConfusion hh
      | cons a l => exact Option.noConfusion hh
  | some tok0 =>
      rw [hh] at h2
      have hget0 : (userToks ++ [(⟨EOF, EOF, 0, 0⟩ : Token)]).get? 0 =
          some tok0 := by
        cases userToks with
        | nil => exact hh
        | cons a l => exact hh
      cases fuel with
      | zero =>
          have h3 : (none : Option ParseOutcome) =
              some (ParseOutcome.ok result) := h2
          exact Option.noConfusion h3
      | succ fuel' =>
          have h3 : parse_loop p.table (userToks ++ [(⟨EOF, EOF, 0, 0⟩ : Token)])
              (fuel' + 1) (AST.grammar ROOT [])
              [StackEntry.addr [], StackEntry.eofNode] tok0 0 =
              some (ParseOutcome.ok result) := h2
          rw [parse_loop_cons_addr] at h3
          have h4 : (match mapLookup p.table (ROOT, tok0.name) with
              | none => some (ParseOutcome.err (unexpected_token tok0))
              | some variant =>
                  if is_epsilon variant then
                    parse_loop p.table (userToks ++ [(⟨EOF, EOF, 0, 0⟩ : Token)])
                      fuel' (AST.grammar ROOT []) [StackEntry.eofNode] tok0 0
                  else
                    parse_loop p.table (userToks ++ [(⟨EOF, EOF, 0, 0⟩ : Token)])
                      fuel'
                      (AST.setAt (AST.grammar ROOT []) []
                        (AST.grammar ROOT (variant.map mkChild ++ [])))
                      ((List.range variant.length).map
                        (fun j => StackEntry.addr ([] ++ [j])) ++
                        [StackEntry.eofNode])
                      tok0 0) = some (ParseOutcome.ok result) := h3
          cases htab : mapLookup p.table (ROOT, tok0.name) with
          | none =>
              rw [htab] at h4
              injection h4 with hx
              exact ParseOutcome.noConfusion hx
          | some variant =>
              rw [htab] at h4
              have hvar : variant = [NodeType.grammar S0, NodeType.token EOF] := by
                have hok : tableOk p.grammars p.table := by
                  rw [htable]
                  exact build_parsing_table_ok p.grammars p.first p.follow
                obtain ⟨e, hemem, he1, he2⟩ := mapLookup_entry htab
                obtain ⟨ge, hgemem, hge1, hgev⟩ := hok e hemem
                rw [hg] at hgemem
                rcases List.mem_cons.mp hgemem with heq | hetail
                · have hv' : variant ∈ ge.2 := he2 ▸ hgev
                  rw [heq] at hv'
                  simpa using hv'
                · exfalso
                  apply (htail ge hetail).1
                  rw [hge1, he1]
              subst hvar
              have h5 : parse_loop p.table (userToks ++ [(⟨EOF, EOF, 0, 0⟩ : Token)])
                  fuel'
                  (AST.grammar ROOT [AST.grammar S0 [], AST.token EOF ""])
                  (List.map (fun q => StackEntry.addr (0 :: q)) [[]] ++
                    [StackEntry.addr [1], StackEntry.eofNode])
                  tok0 0 = some (ParseOutcome.ok result) := h4
              have hmain := parse_loop_leaves p.table userToks hD2 hnames
                fuel' (AST.grammar S0 []) [[]] [] tok0 0 result
                (Open.pendNode S0 hS0) rfl (Nat.zero_le _) hget0 h5
              refine ⟨hmain, ?_⟩
              intro pr hpr
              rw [hmain] at hpr
              obtain ⟨t, htmem, rfl⟩ := List.mem_map.mp hpr
              exact hnames t htmem

/-- Witness for C7: the witness parser on input `a` returns the tree
`S[a]`, whose leaves are exactly the token pairs and `$`-free. -/
theorem C7_leaves_equal_tokens_witness :
    AST.leaves (AST.grammar "S" [AST.token "a" "a"]) =
        List.map tokenPair [⟨"a", "a", 1, 1⟩] ∧
      ∀ pr ∈ AST.leaves (AST.grammar "S" [AST.token "a" "a"]), pr.1 ≠ EOF :=
  C7_leaves_equal_tokens pW "S" [("S", [[NodeType.token "a"]])] "a"
    [⟨"a", "a", 1, 1⟩] 20 (AST.grammar "S" [AST.token "a" "a"])
    rfl
    (by decide)
    (by
      intro e he
      rw [List.mem_singleton] at he
      subst he
      refine ⟨by decide, ?_⟩
      intro v hv
      rw [List.mem_singleton] at hv
      subst hv
      refine ⟨by decide, ?_⟩
      intro sym hs
      rw [List.mem_singleton] at hs
      subst hs
      show "a" ≠ EOF
      decide)
    rfl
    (by
      intro q hq
      simp only [show pW.tokenizer.patterns = [patA, patB, Tokenizer.epsilon] from rfl,
        List.mem_cons, List.mem_singleton, List.not_mem_nil, or_false] at hq
      rcases hq with rfl | rfl | rfl
      · decide
      · decide
      · decide)
    rfl
    rfl

end RustParser
